import Mathlib

/-!
# Verification of the non-escaping scope pruner

A shallow embedding of `PruneNonEscapingScopes.ts` — the React compiler pass
that prunes reactive scopes whose outputs do not escape through the function's
return values — together with proofs about the embedded definitions.

The embedding follows the source file closely:
* `MemoizationLevel` and `joinAliases` mirror the four-valued lattice.
* `State` mirrors the pass-scoped `State` class (definitions, identifier
  graph, scope graph, returned set).
* `visit` / `forceMemoizeScopeDependencies` mirror the escape solver
  `computeMemoizedIdentifiers`.  The solver is written with an explicit fuel
  parameter; termination of the original (guaranteed by the `seen` marks) is
  proved as: enough fuel never runs out.
* `computeMemoizationInputs` mirrors the value-kind classification table.
* `visitInstructionC` / `visitTerminalC` mirror `CollectDependenciesVisitor`.
* `transformStmt` mirrors `PruneScopesTransform`.

JavaScript `Map`/`Set` objects are embedded as association lists / lists with
membership-guarded insertion, which preserves lookup and iteration-order
semantics.
-/

namespace PruneScopes

abbrev IdentifierId := Nat
abbrev ScopeId := Nat
abbrev InstructionId := Nat

/-- Embedding of `MemoizationLevel` from the source: describes how a value should be
memoized relative to dependees and dependencies. -/
inductive MemoizationLevel where
  | Memoized
  | Conditional
  | Unmemoized
  | Never
deriving DecidableEq, Repr, Fintype

/-- Rank of a level in the lattice order `Never < Unmemoized < Conditional <
Memoized` described by the specification. -/
def rank : MemoizationLevel → Nat
  | .Never => 0
  | .Unmemoized => 1
  | .Conditional => 2
  | .Memoized => 3

/-- Embedding of `joinAliases` from the source: given an identifier that appears as an
lvalue multiple times with different memoization levels, determines the final
memoization level. -/
def joinAliases (kind1 kind2 : MemoizationLevel) : MemoizationLevel :=
  if kind1 = .Memoized ∨ kind2 = .Memoized then
    .Memoized
  else if kind1 = .Conditional ∨ kind2 = .Conditional then
    .Conditional
  else if kind1 = .Unmemoized ∨ kind2 = .Unmemoized then
    .Unmemoized
  else
    .Never

/-- Effects carried by places; `isMutableEffect` distinguishes
Capture/Mutate/Store from the rest. -/
inductive Effect where
  | Read
  | Mutate
  | Capture
  | Store
  | Freeze
  | Unknown
deriving DecidableEq, Repr

/-- Embedding of `isMutableEffect` from the source. -/
def isMutableEffect : Effect → Bool
  | .Capture => true
  | .Mutate => true
  | .Store => true
  | _ => false

/-- A `Place`: an occurrence of an identifier with an effect. -/
structure Place where
  identifier : IdentifierId
  effect : Effect
deriving DecidableEq, Repr

/-- Embedding of `IdentifierNode` from the source: a vertex of the identifier graph. -/
structure IdentifierNode where
  level : MemoizationLevel
  memoized : Bool
  dependencies : List IdentifierId
  scopes : List ScopeId
  seen : Bool
deriving DecidableEq, Repr

/-- Embedding of `ScopeNode` from the source: a vertex of the scope graph. -/
structure ScopeNode where
  dependencies : List IdentifierId
  seen : Bool
deriving DecidableEq, Repr

/-- A reactive scope as delivered by the host (`getPlaceScope`) and carried on
scope blocks: its id, its ordered dependencies, and (for the pruning
transform) its declaration keys and reassignment identifier ids. -/
structure ReactiveScope where
  id : ScopeId
  dependencies : List Place
  declarations : List IdentifierId
  reassignments : List IdentifierId
deriving DecidableEq, Repr

/-! ## Association-list primitives (embedding of JS `Map`) -/

/-- Lookup of the first binding of a key, mirroring `Map.get`. -/
def alookup {α : Type} : List (Nat × α) → Nat → Option α
  | [], _ => none
  | (k, v) :: rest, key => if k = key then some v else alookup rest key

/-- Update every binding of a key in place, mirroring mutation of the object
stored in a JS `Map` (lookups observe the first binding either way). -/
def aupdate {α : Type} : List (Nat × α) → Nat → (α → α) → List (Nat × α)
  | [], _, _ => []
  | (k, v) :: rest, key, f =>
    if k = key then (k, f v) :: aupdate rest key f
    else (k, v) :: aupdate rest key f

/-- Insertion into a JS `Set` held as a list: append if absent. -/
def addUnique (l : List Nat) (x : Nat) : List Nat :=
  if x ∈ l then l else l ++ [x]

/-- Embedding of `State` from the source: pass-scoped container for the `definitions`
indirection map, the identifier graph, the scope graph and the returned set. -/
structure State where
  definitions : List (IdentifierId × IdentifierId)
  identifiers : List (IdentifierId × IdentifierNode)
  scopes : List (ScopeId × ScopeNode)
  returned : List IdentifierId
deriving DecidableEq, Repr

def emptyState : State := ⟨[], [], [], []⟩

def lookupId (s : State) (id : IdentifierId) : Option IdentifierNode :=
  alookup s.identifiers id

def updateId (s : State) (id : IdentifierId) (f : IdentifierNode → IdentifierNode) :
    State :=
  { s with identifiers := aupdate s.identifiers id f }

def insertId (s : State) (id : IdentifierId) (n : IdentifierNode) : State :=
  { s with identifiers := (id, n) :: s.identifiers }

def lookupScope (s : State) (id : ScopeId) : Option ScopeNode :=
  alookup s.scopes id

def updateScope (s : State) (id : ScopeId) (f : ScopeNode → ScopeNode) : State :=
  { s with scopes := aupdate s.scopes id f }

def insertScope (s : State) (id : ScopeId) (n : ScopeNode) : State :=
  { s with scopes := (id, n) :: s.scopes }

/-- Embedding of `State.declare` from the source: declare a new identifier (used for the
function id and the parameters) with level `Never`. -/
def State.declare (s : State) (id : IdentifierId) : State :=
  insertId s id
    { level := .Never, memoized := false, dependencies := [], scopes := [],
      seen := false }

/-! ## Escape solver (`computeMemoizedIdentifiers`)

The source solver is a pair of mutually recursive closures over the mutable
state plus a local `memoized` output set.  We bundle the state with the output
set, and index the recursion by fuel; the `seen`-mark termination argument of
the original is the theorem that sufficient fuel never runs out. -/

structure SolveState where
  st : State
  memo : List IdentifierId
deriving DecidableEq, Repr

inductive SolveErr where
  | outOfFuel
  | missingIdentifier
  | missingScope
deriving DecidableEq, Repr

/-- Entering an identifier's frame: mark it seen and (for cycle safety)
temporarily non-memoized. -/
def markSeen (s : SolveState) (id : IdentifierId) : SolveState :=
  { s with
    st := updateId s.st id
        (fun n => { n with seen := true, memoized := false }) }

/-- Deciding an identifier memoized: set its flag and add it to the output
set. -/
def recordMemoized (s : SolveState) (id : IdentifierId) : SolveState :=
  { st := updateId s.st id (fun n => { n with memoized := true }),
    memo := s.memo ++ [id] }

/-- Entering a scope's frame: mark the scope node seen. -/
def scopeMarkSeen (s : SolveState) (id : ScopeId) : SolveState :=
  { s with st := updateScope s.st id (fun n => { n with seen := true }) }

/-- The memoization decision of step 5 of the solver: the condition of the
`if` in `visit` (lines 274-279 of the source). -/
def memoDecision (level : MemoizationLevel)
    (hasMemoizedDependency forceMemoize : Bool) : Bool :=
  level = MemoizationLevel.Memoized ||
    (level = MemoizationLevel.Conditional &&
      (hasMemoizedDependency || forceMemoize)) ||
    (level = MemoizationLevel.Unmemoized && forceMemoize)

mutual

/-- Embedding of `visit` from `computeMemoizedIdentifiers`: visit an identifier, optionally
forcing it to be memoized. -/
def visit : Nat → SolveState → IdentifierId → Bool →
    Except SolveErr (Bool × SolveState)
  | 0, _, _, _ => .error .outOfFuel
  | fuel + 1, s, id, forceMemoize =>
    match lookupId s.st id with
    | none => .error .missingIdentifier
    | some node =>
      if node.seen then
        .ok (node.memoized, s)
      else
        -- mark seen; in case of cycles, temporarily mark non-memoized
        match visitDeps fuel (markSeen s id) node.dependencies with
        | .error e => .error e
        | .ok (hasMemoizedDependency, s2) =>
          if memoDecision node.level hasMemoizedDependency forceMemoize then
            match forceScopes fuel (recordMemoized s2 id) node.scopes with
            | .error e => .error e
            | .ok s4 => .ok (true, s4)
          else
            .ok (false, s2)
termination_by structural fuel _ _ _ => fuel

/-- The dependency loop of `visit`: visit every dependency and accumulate
whether any of them is memoized. -/
def visitDeps : Nat → SolveState → List IdentifierId →
    Except SolveErr (Bool × SolveState)
  | 0, _, _ => .error .outOfFuel
  | _ + 1, s, [] => .ok (false, s)
  | fuel + 1, s, dep :: rest =>
    match visit fuel s dep false with
    | .error e => .error e
    | .ok (isDepMemoized, s') =>
      match visitDeps fuel s' rest with
      | .error e => .error e
      | .ok (has, s'') => .ok (isDepMemoized || has, s'')
termination_by structural fuel _ _ => fuel

/-- The scope loop at the end of `visit`: force every scope of a memoized
identifier. -/
def forceScopes : Nat → SolveState → List ScopeId → Except SolveErr SolveState
  | 0, _, _ => .error .outOfFuel
  | _ + 1, s, [] => .ok s
  | fuel + 1, s, scopeId :: rest =>
    match forceScope fuel s scopeId with
    | .error e => .error e
    | .ok s' => forceScopes fuel s' rest
termination_by structural fuel _ _ => fuel

/-- Embedding of `forceMemoizeScopeDependencies` from the source: force all the scope's
optionally-memoizable dependencies (not `Never`) to be memoized. -/
def forceScope : Nat → SolveState → ScopeId → Except SolveErr SolveState
  | 0, _, _ => .error .outOfFuel
  | fuel + 1, s, id =>
    match lookupScope s.st id with
    | none => .error .missingScope
    | some node =>
      if node.seen then
        .ok s
      else
        forceScopeDeps fuel (scopeMarkSeen s id) node.dependencies
termination_by structural fuel _ _ => fuel

/-- The dependency loop of `forceMemoizeScopeDependencies`: visit each scope
dependency with `forceMemoize = true`. -/
def forceScopeDeps : Nat → SolveState → List IdentifierId →
    Except SolveErr SolveState
  | 0, _, _ => .error .outOfFuel
  | _ + 1, s, [] => .ok s
  | fuel + 1, s, dep :: rest =>
    match visit fuel s dep true with
    | .error e => .error e
    | .ok (_, s') => forceScopeDeps fuel s' rest
termination_by structural fuel _ _ => fuel

end

/-- The root loop of `computeMemoizedIdentifiers`: walk from the returned
identifiers. -/
def visitAll : Nat → SolveState → List IdentifierId → Except SolveErr SolveState
  | 0, _, _ => .error .outOfFuel
  | _ + 1, s, [] => .ok s
  | fuel + 1, s, r :: rest =>
    match visit fuel s r false with
    | .error e => .error e
    | .ok (_, s') => visitAll fuel s' rest

/-- Embedding of `computeMemoizedIdentifiers` from the source, indexed by fuel: walks the
graph from the returned nodes and returns the set of identifiers that should
be memoized. -/
def computeMemoizedIdentifiers (fuel : Nat) (st : State) :
    Except SolveErr (List IdentifierId) :=
  match visitAll fuel { st := st, memo := [] } st.returned with
  | .error e => .error e
  | .ok s => .ok s.memo

/-! ## Value-kind classification (`computeMemoizationInputs`) -/

/-- JSX attributes: either a named attribute with a place, or a spread
attribute with an argument place. -/
inductive JsxAttribute where
  | attribute (place : Place)
  | spreadAttribute (argument : Place)
deriving DecidableEq, Repr

/-- Items of an array destructuring pattern: a plain identifier place or a
spread/rest place. -/
inductive ArrayPatternItem where
  | identifier (place : Place)
  | spread (place : Place)
deriving DecidableEq, Repr

/-- Properties of an object destructuring pattern: an ordinary property or a
rest element. -/
inductive ObjectPatternProperty where
  | property (place : Place)
  | spread (place : Place)
deriving DecidableEq, Repr

/-- Embedding of the destructuring `Pattern` kinds. -/
inductive Pattern where
  | ArrayPattern (items : List ArrayPatternItem)
  | ObjectPattern (properties : List ObjectPatternProperty)
deriving DecidableEq, Repr

/-- Embedding of `ReactiveValue`: the HIR value kinds dispatched on by the collector.
Constructors carry exactly the fields that `computeMemoizationInputs` reads;
the kinds it treats uniformly through `eachReactiveValueOperand` carry their
operand list. -/
inductive ReactiveValue where
  | ConditionalExpression (test consequent alternate : ReactiveValue)
  | LogicalExpression (left right : ReactiveValue)
  | SequenceExpression (value : ReactiveValue)
  | JsxExpression (tag : Place) (props : List JsxAttribute)
      (children : Option (List Place))
  | JsxFragment (children : List Place)
  | ComputedDelete
  | PropertyDelete
  | LoadGlobal
  | TemplateLiteral
  | Primitive
  | JSXText
  | BinaryExpression
  | UnaryExpression
  | TypeCastExpression (value : Place)
  | LoadLocal (place : Place)
  | DeclareLocal (lvaluePlace : Place)
  | StoreLocal (lvaluePlace : Place) (value : Place)
  | Destructure (pattern : Pattern) (value : Place)
  | ComputedLoad (object : Place)
  | PropertyLoad (object : Place)
  | ComputedStore (object : Place) (value : Place)
  | OptionalCall (operands : List Place)
  | RegExpLiteral (operands : List Place)
  | FunctionExpression (operands : List Place)
  | TaggedTemplateExpression (operands : List Place)
  | CallExpression (operands : List Place)
  | ArrayExpression (operands : List Place)
  | NewExpression (operands : List Place)
  | ObjectExpression (operands : List Place)
  | MethodCall (operands : List Place)
  | PropertyStore (operands : List Place)
  | UnsupportedNode
deriving DecidableEq, Repr

/-- Modelled from the spec: `eachReactiveValueOperand` (host contract from
`visitors.ts`, not part of the sources) yields every operand place of a value
with its effect.  The kinds dispatched uniformly by the collector carry their
operand list directly; for the structural kinds we enumerate their places. -/
def eachReactiveValueOperand : ReactiveValue → List Place
  | .ConditionalExpression .. => []
  | .LogicalExpression .. => []
  | .SequenceExpression .. => []
  | .JsxExpression tag props children =>
      tag ::
        (props.map fun prop =>
          match prop with
          | .attribute place => place
          | .spreadAttribute argument => argument) ++
        children.getD []
  | .JsxFragment children => children
  | .ComputedDelete => []
  | .PropertyDelete => []
  | .LoadGlobal => []
  | .TemplateLiteral => []
  | .Primitive => []
  | .JSXText => []
  | .BinaryExpression => []
  | .UnaryExpression => []
  | .TypeCastExpression value => [value]
  | .LoadLocal place => [place]
  | .DeclareLocal _ => []
  | .StoreLocal _ value => [value]
  | .Destructure _ value => [value]
  | .ComputedLoad object => [object]
  | .PropertyLoad object => [object]
  | .ComputedStore object value => [object, value]
  | .OptionalCall operands => operands
  | .RegExpLiteral operands => operands
  | .FunctionExpression operands => operands
  | .TaggedTemplateExpression operands => operands
  | .CallExpression operands => operands
  | .ArrayExpression operands => operands
  | .NewExpression operands => operands
  | .ObjectExpression operands => operands
  | .MethodCall operands => operands
  | .PropertyStore operands => operands
  | .UnsupportedNode => []

structure MemoizationOptions where
  memoizeJsxElements : Bool
deriving DecidableEq, Repr

structure LValueMemoization where
  place : Place
  level : MemoizationLevel
deriving DecidableEq, Repr

structure MemoizationInputs where
  lvalues : List LValueMemoization
  rvalues : List Place
deriving DecidableEq, Repr

inductive CollectErr where
  | unsupportedNode
  | missingIdentifier
deriving DecidableEq, Repr

/-- Embedding of `computePatternLValues` from the source. -/
def computePatternLValues : Pattern → List LValueMemoization
  | .ArrayPattern items =>
    items.map fun item =>
      match item with
      | .identifier place => { place := place, level := .Conditional }
      | .spread place => { place := place, level := .Memoized }
  | .ObjectPattern properties =>
    properties.map fun property =>
      match property with
      | .property place => { place := place, level := .Conditional }
      | .spread place => { place := place, level := .Memoized }

/-- The shared branch for value kinds that return a primitive and never need
to be memoized (level `Never`, no rvalues). -/
def primitiveInputs (lvalue : Option Place) : MemoizationInputs :=
  { lvalues :=
      match lvalue with
      | some l => [{ place := l, level := .Never }]
      | none => [],
    rvalues := [] }

/-- The shared branch for value kinds that may produce new values: every
operand with a mutable effect is an lvalue at level `Memoized`, the
instruction lvalue is `Memoized`, and all operands are rvalues. -/
def allocatingInputs (value : ReactiveValue) (lvalue : Option Place) :
    MemoizationInputs :=
  let operands := eachReactiveValueOperand value
  { lvalues :=
      (operands.filter fun operand => isMutableEffect operand.effect).map
        (fun place => { place := place, level := MemoizationLevel.Memoized }) ++
        (match lvalue with
         | some l => [{ place := l, level := .Memoized }]
         | none => []),
    rvalues := operands }

/-- Embedding of `computeMemoizationInputs` from the source: given a value and the
instruction's optional lvalue, the description of how it should be memoized
(extra lvalue-like places with their levels, and the rvalue places aliased by
the lvalues). -/
def computeMemoizationInputs (value : ReactiveValue) (lvalue : Option Place)
    (options : MemoizationOptions) : Except CollectErr MemoizationInputs :=
  match value with
  | .ConditionalExpression _test consequent alternate => do
    -- Conditionals do not alias their test value.
    let c ← computeMemoizationInputs consequent none options
    let a ← computeMemoizationInputs alternate none options
    pure
      { lvalues :=
          match lvalue with
          | some l => [{ place := l, level := .Conditional }]
          | none => [],
        rvalues := c.rvalues ++ a.rvalues }
  | .LogicalExpression left right => do
    let lr ← computeMemoizationInputs left none options
    let rr ← computeMemoizationInputs right none options
    pure
      { lvalues :=
          match lvalue with
          | some l => [{ place := l, level := .Conditional }]
          | none => [],
        rvalues := lr.rvalues ++ rr.rvalues }
  | .SequenceExpression value => do
    -- Only the final value of the sequence is a true rvalue.
    let vr ← computeMemoizationInputs value none options
    pure
      { lvalues :=
          match lvalue with
          | some l => [{ place := l, level := .Conditional }]
          | none => [],
        rvalues := vr.rvalues }
  | .JsxExpression tag props children =>
    let operands : List Place :=
      tag ::
        (props.map fun prop =>
          match prop with
          | .attribute place => place
          | .spreadAttribute argument => argument) ++
        (match children with
         | some cs => cs
         | none => [])
    let level : MemoizationLevel :=
      if options.memoizeJsxElements then .Memoized else .Unmemoized
    .ok
      { lvalues :=
          match lvalue with
          | some l => [{ place := l, level := level }]
          | none => [],
        rvalues := operands }
  | .JsxFragment children =>
    let level : MemoizationLevel :=
      if options.memoizeJsxElements then .Memoized else .Unmemoized
    .ok
      { lvalues :=
          match lvalue with
          | some l => [{ place := l, level := level }]
          | none => [],
        rvalues := children }
  | .ComputedDelete => .ok (primitiveInputs lvalue)
  | .PropertyDelete => .ok (primitiveInputs lvalue)
  | .LoadGlobal => .ok (primitiveInputs lvalue)
  | .TemplateLiteral => .ok (primitiveInputs lvalue)
  | .Primitive => .ok (primitiveInputs lvalue)
  | .JSXText => .ok (primitiveInputs lvalue)
  | .BinaryExpression => .ok (primitiveInputs lvalue)
  | .UnaryExpression => .ok (primitiveInputs lvalue)
  | .TypeCastExpression value =>
    .ok
      { lvalues :=
          match lvalue with
          | some l => [{ place := l, level := .Conditional }]
          | none => [],
        rvalues := [value] }
  | .LoadLocal place =>
    .ok
      { lvalues :=
          match lvalue with
          | some l => [{ place := l, level := .Conditional }]
          | none => [],
        rvalues := [place] }
  | .DeclareLocal lvaluePlace =>
    .ok
      { lvalues :=
          { place := lvaluePlace, level := .Unmemoized } ::
            (match lvalue with
             | some l => [{ place := l, level := .Unmemoized }]
             | none => []),
        rvalues := [] }
  | .StoreLocal lvaluePlace value =>
    .ok
      { lvalues :=
          { place := lvaluePlace, level := .Conditional } ::
            (match lvalue with
             | some l => [{ place := l, level := .Conditional }]
             | none => []),
        rvalues := [value] }
  | .Destructure pattern value =>
    .ok
      { lvalues :=
          (match lvalue with
           | some l => [{ place := l, level := .Conditional }]
           | none => []) ++
            computePatternLValues pattern,
        rvalues := [value] }
  | .ComputedLoad object =>
    .ok
      { lvalues :=
          match lvalue with
          | some l => [{ place := l, level := .Conditional }]
          | none => [],
        rvalues := [object] }
  | .PropertyLoad object =>
    .ok
      { lvalues :=
          match lvalue with
          | some l => [{ place := l, level := .Conditional }]
          | none => [],
        rvalues := [object] }
  | .ComputedStore object value =>
    .ok
      { lvalues :=
          { place := object, level := .Conditional } ::
            (match lvalue with
             | some l => [{ place := l, level := .Conditional }]
             | none => []),
        rvalues := [value] }
  | .OptionalCall _ => .ok (allocatingInputs value lvalue)
  | .RegExpLiteral _ => .ok (allocatingInputs value lvalue)
  | .FunctionExpression _ => .ok (allocatingInputs value lvalue)
  | .TaggedTemplateExpression _ => .ok (allocatingInputs value lvalue)
  | .CallExpression _ => .ok (allocatingInputs value lvalue)
  | .ArrayExpression _ => .ok (allocatingInputs value lvalue)
  | .NewExpression _ => .ok (allocatingInputs value lvalue)
  | .ObjectExpression _ => .ok (allocatingInputs value lvalue)
  | .MethodCall _ => .ok (allocatingInputs value lvalue)
  | .PropertyStore _ => .ok (allocatingInputs value lvalue)
  | .UnsupportedNode => .error .unsupportedNode

/-! ## Dependency collector (`CollectDependenciesVisitor`) -/

/-- Resolution of a place's identifier through the `definitions` map:
`state.definitions.get(id) ?? id` — a single-step lookup where a miss
returns the input unchanged. -/
def resolve (definitions : List (IdentifierId × IdentifierId))
    (id : IdentifierId) : IdentifierId :=
  (alookup definitions id).getD id

/-- The host contract `getPlaceScope`: the reactive scope active for a place
at a given instruction id, if any. -/
abbrev GetPlaceScope := InstructionId → Place → Option ReactiveScope

/-- A fresh identifier node, as created lazily for an lvalue first mentioned
by the collector. -/
def freshNode : IdentifierNode :=
  { level := .Never, memoized := false, dependencies := [], scopes := [],
    seen := false }

/-- Lazy creation of the scope node from the scope's declared dependencies
(the first half of `State.visitOperand`). -/
def ensureScope (s : State) (scope : ReactiveScope) : State :=
  match lookupScope s scope.id with
  | some _ => s
  | none =>
    insertScope s scope.id
      { dependencies := scope.dependencies.map fun dep => dep.identifier,
        seen := false }

/-- Embedding of `State.visitOperand` from the source: associates an identifier with its
scope, if there is one and it is active for the given instruction id.  The
scope node is created lazily from the scope's declared dependencies; the
identifier node is required to exist (the "Expected identifier to be
initialized" invariant). -/
def State.visitOperand (gps : GetPlaceScope) (s : State) (id : InstructionId)
    (place : Place) (identifier : IdentifierId) : Except CollectErr State :=
  match gps id place with
  | none => .ok s
  | some scope =>
    match lookupId (ensureScope s scope) identifier with
    | none => .error .missingIdentifier
    | some _ =>
      .ok (updateId (ensureScope s scope) identifier fun n =>
        { n with scopes := addUnique n.scopes scope.id })

/-- A reactive instruction: id, optional lvalue and value. -/
structure ReactiveInstruction where
  id : InstructionId
  lvalue : Option Place
  value : ReactiveValue
deriving DecidableEq, Repr

/-- The rvalue loop of `visitInstruction`: associate every rvalue (resolved
through `definitions`) with the instruction's scope. -/
def visitRValues (gps : GetPlaceScope) (iid : InstructionId) (s : State) :
    List Place → Except CollectErr State
  | [] => .ok s
  | operand :: rest =>
    match State.visitOperand gps s iid operand
        (resolve s.definitions operand.identifier) with
    | .error e => .error e
    | .ok s' => visitRValues gps iid s' rest

/-- The inner dependency loop of the lvalue processing: add every resolved
rvalue other than the lvalue itself as a dependency of the lvalue's node. -/
def addDeps (lvalueId : IdentifierId) (s : State) : List Place → State
  | [] => s
  | operand :: rest =>
    let operandId := resolve s.definitions operand.identifier
    if operandId = lvalueId then addDeps lvalueId s rest
    else
      addDeps lvalueId
        (updateId s lvalueId fun n =>
          { n with dependencies := addUnique n.dependencies operandId })
        rest

/-- Lazy creation of an identifier node for an lvalue first mentioned by the
collector. -/
def ensureId (s : State) (id : IdentifierId) : State :=
  match lookupId s id with
  | some _ => s
  | none => insertId s id freshNode

/-- The body of the lvalue loop of `visitInstruction` for one lvalue: create
the node lazily, join its level, add all resolved rvalues (except itself) as
dependencies, and associate the lvalue with its scope. -/
def visitLValue (gps : GetPlaceScope) (iid : InstructionId)
    (rvalues : List Place) (s : State) (lv : LValueMemoization) :
    Except CollectErr State :=
  State.visitOperand gps
    (addDeps (resolve s.definitions lv.place.identifier)
      (updateId (ensureId s (resolve s.definitions lv.place.identifier))
        (resolve s.definitions lv.place.identifier)
        (fun n => { n with level := joinAliases n.level lv.level }))
      rvalues)
    iid lv.place (resolve s.definitions lv.place.identifier)

/-- The lvalue loop of `visitInstruction`. -/
def visitLValues (gps : GetPlaceScope) (iid : InstructionId)
    (rvalues : List Place) (s : State) :
    List LValueMemoization → Except CollectErr State
  | [] => .ok s
  | lv :: rest =>
    match visitLValue gps iid rvalues s lv with
    | .error e => .error e
    | .ok s' => visitLValues gps iid rvalues s' rest

/-- The final step of `visitInstruction`: record the `LoadLocal` indirection
`lvalue → source` in `definitions`, after the instruction's own lvalues and
rvalues have been processed. -/
def recordDefinition (s : State) (instruction : ReactiveInstruction) : State :=
  match instruction.value, instruction.lvalue with
  | .LoadLocal place, some lvalue =>
    { s with
      definitions := (lvalue.identifier, place.identifier) :: s.definitions }
  | _, _ => s

/-- Embedding of `CollectDependenciesVisitor.visitInstruction` from the source. -/
def visitInstructionC (options : MemoizationOptions) (gps : GetPlaceScope)
    (s : State) (instruction : ReactiveInstruction) :
    Except CollectErr State :=
  match computeMemoizationInputs instruction.value instruction.lvalue
      options with
  | .error e => .error e
  | .ok aliasing =>
    match visitRValues gps instruction.id s aliasing.rvalues with
    | .error e => .error e
    | .ok s =>
      match visitLValues gps instruction.id aliasing.rvalues s
          aliasing.lvalues with
      | .error e => .error e
      | .ok s => .ok (recordDefinition s instruction)

/-- Reactive terminals, reduced to what the collector inspects: a `return`
with an optional value, or anything else. -/
inductive RTerminal where
  | ret (value : Option Place)
  | other
deriving DecidableEq, Repr

/-- Embedding of `CollectDependenciesVisitor.visitTerminal` from the source: a `return`
with a non-null value adds the returned identifier (unresolved). -/
def visitTerminalC (s : State) (t : RTerminal) : State :=
  match t with
  | .ret (some value) =>
    { s with returned := addUnique s.returned value.identifier }
  | _ => s

/-- Reactive statements: instructions, terminals, and scope blocks holding
nested statements. -/
inductive ReactiveStatement where
  | instruction (instr : ReactiveInstruction)
  | terminal (terminal : RTerminal)
  | scope (scope : ReactiveScope) (instructions : List ReactiveStatement)

mutual

/-- In-order collection over one statement (the visitor's traversal). -/
def collectStmt (options : MemoizationOptions) (gps : GetPlaceScope)
    (s : State) : ReactiveStatement → Except CollectErr State
  | .instruction i => visitInstructionC options gps s i
  | .terminal t => .ok (visitTerminalC s t)
  | .scope _ instructions => collectStmts options gps s instructions

/-- In-order collection over a statement list. -/
def collectStmts (options : MemoizationOptions) (gps : GetPlaceScope)
    (s : State) : List ReactiveStatement → Except CollectErr State
  | [] => .ok s
  | stmt :: rest =>
    match collectStmt options gps s stmt with
    | .error e => .error e
    | .ok s' => collectStmts options gps s' rest

end

/-- The initial state of `pruneNonEscapingScopes`: the function's own id (when
present) and every parameter are pre-declared with level `Never`. -/
def initialState (fnId : Option IdentifierId) (params : List IdentifierId) :
    State :=
  let s :=
    match fnId with
    | some id => State.declare emptyState id
    | none => emptyState
  params.foldl State.declare s

/-! ## Scope-pruning transform (`PruneScopesTransform`) -/

/-- The keep/inline decision of `transformScope`: does the scope declare or
reassign any identifier in the memoized set? -/
def hasMemoizedOutput (scope : ReactiveScope) (state : List IdentifierId) :
    Bool :=
  (scope.declarations.any fun id => state.contains id) ||
    (scope.reassignments.any fun identifier => state.contains identifier)

/-- Embedding of `Transformed` from the visitor framework, reduced to the two variants the
pruning transform produces. -/
inductive Transformed where
  | keep
  | replaceMany (value : List ReactiveStatement)

/-- Embedding of `PruneScopesTransform.transformScope` from the source, given the already
recursively-transformed instructions of the scope: keep the scope if it has a
memoized output, otherwise replace it with its instruction sequence. -/
def transformScopeDecision (state : List IdentifierId) (scope : ReactiveScope)
    (instructions : List ReactiveStatement) : Transformed :=
  if hasMemoizedOutput scope state then .keep
  else .replaceMany instructions

mutual

/-- The recursive transform on one statement: the list of statements that
replaces it (a kept statement is returned unchanged as a singleton). -/
def transformStmt (state : List IdentifierId) :
    ReactiveStatement → List ReactiveStatement
  | .instruction i => [.instruction i]
  | .terminal t => [.terminal t]
  | .scope sc instructions =>
    let instructions' := transformStmts state instructions
    match transformScopeDecision state sc instructions' with
    | .keep => [.scope sc instructions']
    | .replaceMany value => value

/-- The recursive transform on a statement list, splicing replacements in
place. -/
def transformStmts (state : List IdentifierId) :
    List ReactiveStatement → List ReactiveStatement
  | [] => []
  | stmt :: rest => transformStmt state stmt ++ transformStmts state rest

end

/-! ## Concrete example inputs

Small graphs and programs used to exercise the embedded pass. -/

/-- A solver graph with a kept scope whose dependency was visited (and left
non-memoized) before the scope was forced: identifier 1 is `Conditional` with
dependency 3, identifier 2 is `Memoized` and belongs to scope 7, identifier 3
is `Unmemoized`; scope 7 depends on 3; 1 and 2 are returned in that order. -/
def exGraphScopeOrder : State :=
  { definitions := [],
    identifiers :=
      [(1, { level := .Conditional, memoized := false, dependencies := [3],
             scopes := [], seen := false }),
       (2, { level := .Memoized, memoized := false, dependencies := [],
             scopes := [7], seen := false }),
       (3, { level := .Unmemoized, memoized := false, dependencies := [],
             scopes := [], seen := false })],
    scopes := [(7, { dependencies := [3], seen := false })],
    returned := [1, 2] }

/-- The reactive scope (transform side) matching scope 7 of
`exGraphScopeOrder`: it declares identifier 2 and depends on 3. -/
def exScope7 : ReactiveScope :=
  { id := 7, dependencies := [{ identifier := 3, effect := .Capture }],
    declarations := [2], reassignments := [] }

/-- A returned identifier of level `Conditional` with no dependencies. -/
def exGraphConditionalReturn : State :=
  { definitions := [],
    identifiers :=
      [(1, { level := .Conditional, memoized := false, dependencies := [],
             scopes := [], seen := false })],
    scopes := [], returned := [1] }

/-- A cyclic dependency graph: 1 and 2 alias each other, 1 is returned. -/
def exGraphCycle : State :=
  { definitions := [],
    identifiers :=
      [(1, { level := .Memoized, memoized := false, dependencies := [2],
             scopes := [], seen := false }),
       (2, { level := .Conditional, memoized := false, dependencies := [1],
             scopes := [], seen := false })],
    scopes := [], returned := [1] }

/-- A graph with a returned `Memoized` identifier and a returned `Never`
identifier. -/
def exGraphReturns : State :=
  { definitions := [],
    identifiers :=
      [(1, { level := .Memoized, memoized := false, dependencies := [],
             scopes := [], seen := false }),
       (4, { level := .Never, memoized := false, dependencies := [],
             scopes := [], seen := false })],
    scopes := [], returned := [1, 4] }

/-- Instruction `t10 = LoadLocal t11`: an instruction whose rvalue identifier 11 is never
mentioned as an lvalue. -/
def exLoadLocal : ReactiveInstruction :=
  { id := 0, lvalue := some { identifier := 10, effect := .Store },
    value := .LoadLocal { identifier := 11, effect := .Read } }

/-- A host-scope oracle that reports no active scopes. -/
def gpsNone : GetPlaceScope := fun _ _ => none

/-- The state produced by collecting `exLoadLocal` from the empty state. -/
def exCollected : State :=
  { definitions := [(10, 11)],
    identifiers :=
      [(10, { level := .Conditional, memoized := false, dependencies := [11],
              scopes := [], seen := false })],
    scopes := [], returned := [] }

/-- A graph with a single unseen `Memoized` node 1 and an unseen `Unmemoized`
node 3, for exercising single `visit` steps. -/
def exGraphVisit : State :=
  { definitions := [],
    identifiers :=
      [(1, { level := .Memoized, memoized := false, dependencies := [],
             scopes := [], seen := false }),
       (3, { level := .Unmemoized, memoized := false, dependencies := [],
             scopes := [], seen := false })],
    scopes := [], returned := [] }

/-- A reactive scope declaring identifier 5, for the transform examples. -/
def exScopeKept : ReactiveScope :=
  { id := 1, dependencies := [], declarations := [5], reassignments := [] }

/-- Decidable coverage check: every dependency and scope mentioned by a node
has a node. -/
def coveredCheck (st : State) : Bool :=
  (st.identifiers.all fun p =>
    (p.2.dependencies.all fun d => (lookupId st d).isSome) &&
      (p.2.scopes.all fun sc => (lookupScope st sc).isSome)) &&
    (st.scopes.all fun p =>
      p.2.dependencies.all fun d => (lookupId st d).isSome)

/-! ## Predicates used by the verification -/

/-- Number of not-yet-seen entries of an association list, by a given `seen`
projection: the quantity that bounds the depth of the solver's recursion. -/
def unseenLenBy {α : Type} (seenOf : α → Bool) (l : List (Nat × α)) : Nat :=
  (l.filter fun p => !seenOf p.2).length

def unseenLen (l : List (IdentifierId × IdentifierNode)) : Nat :=
  unseenLenBy (fun n => n.seen) l

def scopeUnseenLen (l : List (ScopeId × ScopeNode)) : Nat :=
  unseenLenBy (fun n => n.seen) l

def idUnseenCount (s : State) : Nat := unseenLen s.identifiers

def scopeUnseenCount (s : State) : Nat := scopeUnseenLen s.scopes

/-- The fuel the solver needs at a given state, for graphs whose dependency
and scope lists all have length at most `M`. -/
def solveWeight (M : Nat) (s : SolveState) : Nat :=
  (idUnseenCount s.st + scopeUnseenCount s.st) * (M + 2) + 2

/-- The largest dependency/scope list length occurring in a state. -/
def maxNodeLen (st : State) : Nat :=
  max
    ((st.identifiers.map fun p =>
      max p.2.dependencies.length p.2.scopes.length).foldr max 0)
    ((st.scopes.map fun p => p.2.dependencies.length).foldr max 0)

/-- A sufficient amount of fuel for the whole solver on a given state. -/
def solverFuelBound (st : State) : Nat :=
  (idUnseenCount st + scopeUnseenCount st) * (maxNodeLen st + 2) + 2 +
    st.returned.length

/-- Simulation relation between solver states: everything a single solver call
can do to the state.  Seen nodes are frozen, shapes (level, dependencies,
scopes) never change, the output set only grows, and every new output member
was an unseen node whose level is not `Never`. -/
structure StepOK (a b : SolveState) : Prop where
  idPres : ∀ j n, lookupId a.st j = some n → n.seen = true →
    lookupId b.st j = some n
  idShape : ∀ j n, lookupId a.st j = some n →
    ∃ n', lookupId b.st j = some n' ∧ n'.level = n.level ∧
      n'.dependencies = n.dependencies ∧ n'.scopes = n.scopes
  idDom : ∀ j, (lookupId b.st j).isSome = (lookupId a.st j).isSome
  scPres : ∀ j n, lookupScope a.st j = some n → n.seen = true →
    lookupScope b.st j = some n
  scShape : ∀ j n, lookupScope a.st j = some n →
    ∃ n', lookupScope b.st j = some n' ∧ n'.dependencies = n.dependencies
  scDom : ∀ j, (lookupScope b.st j).isSome = (lookupScope a.st j).isSome
  memoMono : ∀ j, j ∈ a.memo → j ∈ b.memo
  memoNew : ∀ j, j ∈ b.memo → j ∈ a.memo ∨
    ∃ n, lookupId a.st j = some n ∧ n.seen = false ∧ n.level ≠ .Never
  unseenMono : idUnseenCount b.st ≤ idUnseenCount a.st
  scUnseenMono : scopeUnseenCount b.st ≤ scopeUnseenCount a.st

/-- Coverage of a solver state: every identifier reachable by the solver
(dependencies of identifier nodes, dependencies of scope nodes) has a node,
and every scope reachable from an identifier node has a scope node.  Under
coverage the missing-node invariants cannot fire. -/
structure Covered (s : SolveState) : Prop where
  depsCovered : ∀ j n, lookupId s.st j = some n →
    ∀ d, d ∈ n.dependencies → (lookupId s.st d).isSome = true
  scopesCovered : ∀ j n, lookupId s.st j = some n →
    ∀ sc, sc ∈ n.scopes → (lookupScope s.st sc).isSome = true
  scopeDepsCovered : ∀ j n, lookupScope s.st j = some n →
    ∀ d, d ∈ n.dependencies → (lookupId s.st d).isSome = true

/-- All dependency and scope lists of a state have length at most `M`. -/
structure Bounded (M : Nat) (s : SolveState) : Prop where
  idBounded : ∀ j n, lookupId s.st j = some n →
    n.dependencies.length ≤ M ∧ n.scopes.length ≤ M
  scBounded : ∀ j n, lookupScope s.st j = some n →
    n.dependencies.length ≤ M

/-- Predicate `SeenGoodExc s P`: every seen identifier node of level `Memoized` outside
the pending set `P` has been decided memoized and recorded in the output. -/
def SeenGoodExc (s : SolveState) (P : List IdentifierId) : Prop :=
  ∀ j n, lookupId s.st j = some n → n.seen = true → n.level = .Memoized →
    j ∉ P → n.memoized = true ∧ j ∈ s.memo

/-- Predicate `Pending s P`: every pending identifier has a node already marked seen. -/
def Pending (s : SolveState) (P : List IdentifierId) : Prop :=
  ∀ j, j ∈ P → ∃ n, lookupId s.st j = some n ∧ n.seen = true

/-! ## Basic lemmas about the container primitives -/

theorem alookup_aupdate {α : Type} (l : List (Nat × α)) (key : Nat) (f : α → α)
    (j : Nat) :
    alookup (aupdate l key f) j =
      if j = key then (alookup l key).map f else alookup l j := by
  induction l with
  | nil => simp [alookup, aupdate]
  | cons p rest ih =>
    obtain ⟨k, v⟩ := p
    by_cases hk : k = key
    · subst hk
      by_cases hj : j = k
      · subst hj
        simp [aupdate, alookup]
      · have hj' : ¬ k = j := fun h => hj h.symm
        simp only [aupdate, if_pos rfl, alookup, if_neg hj']
        rw [ih, if_neg hj, if_neg hj]
    · by_cases hkj : k = j
      · subst hkj
        have hj : ¬ k = key := hk
        simp [aupdate, alookup, if_neg hj]
      · simp only [aupdate, if_neg hk, alookup, if_neg hkj]
        rw [ih]

/-- Membership after `addUnique`. -/
theorem mem_addUnique (l : List Nat) (x y : Nat) :
    y ∈ addUnique l x ↔ y ∈ l ∨ y = x := by
  unfold addUnique
  by_cases h : x ∈ l
  · simp only [h, if_pos]
    constructor
    · exact Or.inl
    · rintro (hy | rfl) <;> assumption
  · simp [h, List.mem_append]

theorem isSomeMap {α β : Type} (f : α → β) (x : Option α) :
    (x.map f).isSome = x.isSome := by
  cases x <;> rfl

theorem lookupId_updateId (s : State) (id : IdentifierId)
    (f : IdentifierNode → IdentifierNode) (j : IdentifierId) :
    lookupId (updateId s id f) j =
      if j = id then (lookupId s id).map f else lookupId s j :=
  alookup_aupdate s.identifiers id f j

theorem lookupScope_updateScope (s : State) (id : ScopeId)
    (f : ScopeNode → ScopeNode) (j : ScopeId) :
    lookupScope (updateScope s id f) j =
      if j = id then (lookupScope s id).map f else lookupScope s j :=
  alookup_aupdate s.scopes id f j

theorem lookupId_updateScope (s : State) (id : ScopeId)
    (f : ScopeNode → ScopeNode) (j : IdentifierId) :
    lookupId (updateScope s id f) j = lookupId s j := rfl

theorem lookupScope_updateId (s : State) (id : IdentifierId)
    (f : IdentifierNode → IdentifierNode) (j : ScopeId) :
    lookupScope (updateId s id f) j = lookupScope s j := rfl

theorem lookupId_insertId (s : State) (id : IdentifierId) (n : IdentifierNode)
    (j : IdentifierId) :
    lookupId (insertId s id n) j = if id = j then some n else lookupId s j :=
  rfl

theorem lookupScope_insertScope (s : State) (id : ScopeId) (n : ScopeNode)
    (j : ScopeId) :
    lookupScope (insertScope s id n) j =
      if id = j then some n else lookupScope s j := rfl

theorem unseenLenBy_cons_seen {α : Type} {seenOf : α → Bool}
    {p : Nat × α} (rest : List (Nat × α)) (h : seenOf p.2 = true) :
    unseenLenBy seenOf (p :: rest) = unseenLenBy seenOf rest := by
  unfold unseenLenBy
  simp [List.filter, h]

theorem unseenLenBy_cons_unseen {α : Type} {seenOf : α → Bool}
    {p : Nat × α} (rest : List (Nat × α)) (h : seenOf p.2 = false) :
    unseenLenBy seenOf (p :: rest) = unseenLenBy seenOf rest + 1 := by
  unfold unseenLenBy
  simp [List.filter, h]

theorem unseenLenBy_aupdate_le {α : Type} (seenOf : α → Bool)
    (l : List (Nat × α)) (id : Nat) (f : α → α)
    (hf : ∀ n, seenOf (f n) = true) :
    unseenLenBy seenOf (aupdate l id f) ≤ unseenLenBy seenOf l := by
  induction l with
  | nil => simp [aupdate]
  | cons p rest ih =>
    obtain ⟨k, v⟩ := p
    by_cases hk : k = id
    · simp only [aupdate, if_pos hk]
      rw [unseenLenBy_cons_seen (aupdate rest id f) (hf v)]
      cases hv : seenOf v
      · rw [unseenLenBy_cons_unseen rest hv]; omega
      · rw [unseenLenBy_cons_seen rest hv]; exact ih
    · simp only [aupdate, if_neg hk]
      cases hv : seenOf v
      · rw [unseenLenBy_cons_unseen (aupdate rest id f) hv,
          unseenLenBy_cons_unseen rest hv]
        omega
      · rw [unseenLenBy_cons_seen (aupdate rest id f) hv,
          unseenLenBy_cons_seen rest hv]
        exact ih

theorem unseenLenBy_aupdate_lt {α : Type} (seenOf : α → Bool)
    (l : List (Nat × α)) (id : Nat) (f : α → α)
    (hf : ∀ n, seenOf (f n) = true) (n : α)
    (h : alookup l id = some n) (hs : seenOf n = false) :
    unseenLenBy seenOf (aupdate l id f) < unseenLenBy seenOf l := by
  induction l with
  | nil => simp [alookup] at h
  | cons p rest ih =>
    obtain ⟨k, v⟩ := p
    by_cases hk : k = id
    · simp only [alookup, if_pos hk] at h
      have hv : v = n := Option.some_injective _ h
      subst hv
      simp only [aupdate, if_pos hk]
      rw [unseenLenBy_cons_seen (aupdate rest id f) (hf v),
        unseenLenBy_cons_unseen rest hs]
      have := unseenLenBy_aupdate_le seenOf rest id f hf
      omega
    · simp only [alookup, if_neg hk] at h
      simp only [aupdate, if_neg hk]
      have hlt := ih h
      cases hv : seenOf v
      · rw [unseenLenBy_cons_unseen (aupdate rest id f) hv,
          unseenLenBy_cons_unseen rest hv]
        omega
      · rw [unseenLenBy_cons_seen (aupdate rest id f) hv,
          unseenLenBy_cons_seen rest hv]
        exact hlt

theorem unseenLenBy_aupdate_eq {α : Type} (seenOf : α → Bool)
    (l : List (Nat × α)) (id : Nat) (f : α → α)
    (hf : ∀ n, seenOf (f n) = seenOf n) :
    unseenLenBy seenOf (aupdate l id f) = unseenLenBy seenOf l := by
  induction l with
  | nil => simp [aupdate]
  | cons p rest ih =>
    obtain ⟨k, v⟩ := p
    by_cases hk : k = id
    · simp only [aupdate, if_pos hk]
      cases hv : seenOf v
      · rw [unseenLenBy_cons_unseen (aupdate rest id f) ((hf v).trans hv),
          unseenLenBy_cons_unseen rest hv, ih]
      · rw [unseenLenBy_cons_seen (aupdate rest id f) ((hf v).trans hv),
          unseenLenBy_cons_seen rest hv, ih]
    · simp only [aupdate, if_neg hk]
      cases hv : seenOf v
      · rw [unseenLenBy_cons_unseen (aupdate rest id f) hv,
          unseenLenBy_cons_unseen rest hv, ih]
      · rw [unseenLenBy_cons_seen (aupdate rest id f) hv,
          unseenLenBy_cons_seen rest hv, ih]

theorem unseenLen_aupdate_le (l : List (IdentifierId × IdentifierNode))
    (id : IdentifierId) (f : IdentifierNode → IdentifierNode)
    (hf : ∀ n, (f n).seen = true) :
    unseenLen (aupdate l id f) ≤ unseenLen l :=
  unseenLenBy_aupdate_le _ l id f hf

theorem unseenLen_aupdate_lt (l : List (IdentifierId × IdentifierNode))
    (id : IdentifierId) (f : IdentifierNode → IdentifierNode)
    (hf : ∀ n, (f n).seen = true) (n : IdentifierNode)
    (h : alookup l id = some n) (hs : n.seen = false) :
    unseenLen (aupdate l id f) < unseenLen l :=
  unseenLenBy_aupdate_lt _ l id f hf n h hs

theorem unseenLen_aupdate_eq (l : List (IdentifierId × IdentifierNode))
    (id : IdentifierId) (f : IdentifierNode → IdentifierNode)
    (hf : ∀ n, (f n).seen = n.seen) :
    unseenLen (aupdate l id f) = unseenLen l :=
  unseenLenBy_aupdate_eq _ l id f hf

/-! ## The simulation relation -/

theorem StepOK.refl (s : SolveState) : StepOK s s where
  idPres _ _ h _ := h
  idShape j n h := ⟨n, h, rfl, rfl, rfl⟩
  idDom _ := rfl
  scPres _ _ h _ := h
  scShape j n h := ⟨n, h, rfl⟩
  scDom _ := rfl
  memoMono _ h := h
  memoNew _ h := Or.inl h
  unseenMono := Nat.le.refl
  scUnseenMono := Nat.le.refl

theorem StepOK.trans {a b c : SolveState} (h1 : StepOK a b) (h2 : StepOK b c) :
    StepOK a c where
  idPres j n h hs := h2.idPres j n (h1.idPres j n h hs) hs
  idShape j n h := by
    obtain ⟨n', hb, hl, hd, hsc⟩ := h1.idShape j n h
    obtain ⟨n'', hc, hl', hd', hsc'⟩ := h2.idShape j n' hb
    exact ⟨n'', hc, hl'.trans hl, hd'.trans hd, hsc'.trans hsc⟩
  idDom j := (h2.idDom j).trans (h1.idDom j)
  scPres j n h hs := h2.scPres j n (h1.scPres j n h hs) hs
  scShape j n h := by
    obtain ⟨n', hb, hd⟩ := h1.scShape j n h
    obtain ⟨n'', hc, hd'⟩ := h2.scShape j n' hb
    exact ⟨n'', hc, hd'.trans hd⟩
  scDom j := (h2.scDom j).trans (h1.scDom j)
  memoMono j h := h2.memoMono j (h1.memoMono j h)
  memoNew j h := by
    rcases h2.memoNew j h with hb | ⟨n', hb, hseen, hlev⟩
    · exact h1.memoNew j hb
    · right
      have hsome : (lookupId a.st j).isSome = true := by
        rw [← h1.idDom j, hb]; rfl
      obtain ⟨n, ha⟩ := Option.isSome_iff_exists.mp hsome
      obtain ⟨m, hbm, hl, _, _⟩ := h1.idShape j n ha
      obtain rfl : m = n' := Option.some_injective _ (hbm.symm.trans hb)
      refine ⟨n, ha, ?_, hl ▸ hlev⟩
      by_contra hns
      have hns' : n.seen = true := by
        cases hx : n.seen
        · exact absurd hx hns
        · rfl
      have hpres := h1.idPres j n ha hns'
      have hnm : n = m := Option.some_injective _ (hpres.symm.trans hb)
      rw [← hnm, hns'] at hseen
      simp at hseen
  unseenMono := h2.unseenMono.trans h1.unseenMono
  scUnseenMono := h2.scUnseenMono.trans h1.scUnseenMono

/-- Marking an unseen identifier node as seen (entering its frame) is a
simulation step. -/
theorem stepOK_markSeen (s : SolveState) (id : IdentifierId)
    (node : IdentifierNode) (hlk : lookupId s.st id = some node)
    (hseen : node.seen = false) :
    StepOK s (markSeen s id) where
  idPres j n h hs := by
    unfold markSeen
    rw [lookupId_updateId]
    by_cases hj : j = id
    · subst hj
      have : n = node := Option.some_injective _ (h.symm.trans hlk)
      rw [this, hseen] at hs
      cases hs
    · rw [if_neg hj]; exact h
  idShape j n h := by
    unfold markSeen
    rw [lookupId_updateId]
    by_cases hj : j = id
    · subst hj
      have : n = node := Option.some_injective _ (h.symm.trans hlk)
      subst this
      exact ⟨{ n with seen := true, memoized := false },
        by rw [if_pos rfl, hlk]; rfl, rfl, rfl, rfl⟩
    · exact ⟨n, by rw [if_neg hj]; exact h, rfl, rfl, rfl⟩
  idDom j := by
    unfold markSeen
    rw [lookupId_updateId]
    by_cases hj : j = id
    · subst hj
      rw [if_pos rfl, isSomeMap]
    · rw [if_neg hj]
  scPres j n h _ := h
  scShape j n h := ⟨n, h, rfl⟩
  scDom _ := rfl
  memoMono _ h := h
  memoNew _ h := Or.inl h
  unseenMono :=
    unseenLen_aupdate_le s.st.identifiers id _ fun _ => rfl
  scUnseenMono := Nat.le.refl

/-- Deciding an identifier memoized: setting its `memoized` flag and appending
it to the output is a simulation step relative to any state in which the
identifier was still unseen with a level other than `Never`. -/
theorem stepOK_pushMemo {s b : SolveState} (h : StepOK s b) (id : IdentifierId)
    (node : IdentifierNode) (hlk : lookupId s.st id = some node)
    (hseen : node.seen = false) (hlev : node.level ≠ .Never) :
    StepOK s (recordMemoized b id) where
  idPres j n hj hs := by
    have hb := h.idPres j n hj hs
    show lookupId (updateId b.st id _) j = some n
    rw [lookupId_updateId]
    by_cases hij : j = id
    · subst hij
      have : n = node := Option.some_injective _ (hj.symm.trans hlk)
      rw [this, hseen] at hs
      cases hs
    · rw [if_neg hij]; exact hb
  idShape j n hj := by
    obtain ⟨n', hb, hl, hd, hsc⟩ := h.idShape j n hj
    show ∃ m, lookupId (updateId b.st id _) j = some m ∧ _
    rw [lookupId_updateId]
    by_cases hij : j = id
    · subst hij
      refine ⟨{ n' with memoized := true }, ?_, hl, hd, hsc⟩
      rw [if_pos rfl, hb]
      rfl
    · exact ⟨n', by rw [if_neg hij]; exact hb, hl, hd, hsc⟩
  idDom j := by
    show (lookupId (updateId b.st id _) j).isSome = _
    rw [lookupId_updateId]
    by_cases hij : j = id
    · rw [if_pos hij, isSomeMap, hij]
      exact h.idDom id
    · rw [if_neg hij]
      exact h.idDom j
  scPres j n hj hs := h.scPres j n hj hs
  scShape j n hj := h.scShape j n hj
  scDom j := h.scDom j
  memoMono j hj := List.mem_append_left _ (h.memoMono j hj)
  memoNew j hj := by
    rcases List.mem_append.mp hj with hjb | hjid
    · exact h.memoNew j hjb
    · have : j = id := List.mem_singleton.mp hjid
      subst this
      exact Or.inr ⟨node, hlk, hseen, hlev⟩
  unseenMono := by
    have heq := unseenLen_aupdate_eq b.st.identifiers id
      (fun n => { n with memoized := true }) (fun _ => rfl)
    show unseenLen (aupdate b.st.identifiers id
      (fun n => { n with memoized := true })) ≤ _
    rw [heq]
    exact h.unseenMono
  scUnseenMono := h.scUnseenMono

/-- Marking an unseen scope node as seen is a simulation step. -/
theorem stepOK_scopeMarkSeen (s : SolveState) (sc : ScopeId)
    (snode : ScopeNode) (hlk : lookupScope s.st sc = some snode)
    (hseen : snode.seen = false) :
    StepOK s (scopeMarkSeen s sc) where
  idPres _ _ h _ := h
  idShape j n h := ⟨n, h, rfl, rfl, rfl⟩
  idDom _ := rfl
  scPres j n h hs := by
    unfold scopeMarkSeen
    rw [lookupScope_updateScope]
    by_cases hj : j = sc
    · subst hj
      have : n = snode := Option.some_injective _ (h.symm.trans hlk)
      rw [this, hseen] at hs
      cases hs
    · rw [if_neg hj]; exact h
  scShape j n h := by
    unfold scopeMarkSeen
    rw [lookupScope_updateScope]
    by_cases hj : j = sc
    · subst hj
      have : n = snode := Option.some_injective _ (h.symm.trans hlk)
      subst this
      exact ⟨{ n with seen := true }, by rw [if_pos rfl, hlk]; rfl, rfl⟩
    · exact ⟨n, by rw [if_neg hj]; exact h, rfl⟩
  scDom j := by
    unfold scopeMarkSeen
    rw [lookupScope_updateScope]
    by_cases hj : j = sc
    · subst hj
      rw [if_pos rfl, isSomeMap]
    · rw [if_neg hj]
  memoMono _ h := h
  memoNew _ h := Or.inl h
  unseenMono := Nat.le.refl
  scUnseenMono :=
    unseenLenBy_aupdate_le _ s.st.scopes sc _ fun _ => rfl

theorem memoDecision_ne_never {level : MemoizationLevel}
    {hasDep force : Bool} (h : memoDecision level hasDep force = true) :
    level ≠ .Never := by
  cases level <;> simp [memoDecision] at h ⊢

/-- Every successful solver call is a simulation step. -/
theorem solver_stepOK (fuel : Nat) :
    (∀ s id f b s', visit fuel s id f = .ok (b, s') → StepOK s s') ∧
    (∀ l s b s', visitDeps fuel s l = .ok (b, s') → StepOK s s') ∧
    (∀ l s s', forceScopes fuel s l = .ok s' → StepOK s s') ∧
    (∀ sc s s', forceScope fuel s sc = .ok s' → StepOK s s') ∧
    (∀ l s s', forceScopeDeps fuel s l = .ok s' → StepOK s s') := by
  induction fuel with
  | zero =>
    refine ⟨?_, ?_, ?_, ?_, ?_⟩
    · intro s id f b s' h; rw [visit] at h; cases h
    · intro l s b s' h; rw [visitDeps] at h; cases h
    · intro l s s' h; rw [forceScopes] at h; cases h
    · intro sc s s' h; rw [forceScope] at h; cases h
    · intro l s s' h; rw [forceScopeDeps] at h; cases h
  | succ fuel ih =>
    obtain ⟨ihv, ihd, ihfs, ihf, ihfd⟩ := ih
    refine ⟨?_, ?_, ?_, ?_, ?_⟩
    · intro s id f b s' h
      rw [visit] at h
      split at h
      · cases h
      next node hlk =>
        split at h
        · cases h
          exact StepOK.refl s
        next hseen =>
          have hseen' : node.seen = false := Bool.not_eq_true _ ▸ hseen
          split at h
          · cases h
          next hasDep s2 hvd =>
            have hs2 : StepOK s s2 :=
              (stepOK_markSeen s id node hlk hseen').trans
                (ihd _ _ _ _ hvd)
            split at h
            next hdec =>
              split at h
              · cases h
              next s4 hfs =>
                cases h
                exact (stepOK_pushMemo hs2 id node hlk hseen'
                  (memoDecision_ne_never hdec)).trans (ihfs _ _ _ hfs)
            next hdec =>
              cases h
              exact hs2
    · intro l s b s' h
      cases l with
      | nil =>
        rw [visitDeps] at h
        cases h
        exact StepOK.refl _
      | cons dep rest =>
        rw [visitDeps] at h
        split at h
        · cases h
        next d sA hv1 =>
          split at h
          · cases h
          next has sB hd2 =>
            cases h
            exact (ihv _ _ _ _ _ hv1).trans (ihd _ _ _ _ hd2)
    · intro l s s' h
      cases l with
      | nil =>
        rw [forceScopes] at h
        cases h
        exact StepOK.refl _
      | cons sc rest =>
        rw [forceScopes] at h
        split at h
        · cases h
        next sA hf1 =>
          exact (ihf _ _ _ hf1).trans (ihfs _ _ _ h)
    · intro sc s s' h
      rw [forceScope] at h
      split at h
      · cases h
      next snode hlk =>
        split at h
        · cases h
          exact StepOK.refl _
        next hseen =>
          have hseen' : snode.seen = false := Bool.not_eq_true _ ▸ hseen
          exact (stepOK_scopeMarkSeen s sc snode hlk hseen').trans
            (ihfd _ _ _ h)
    · intro l s s' h
      cases l with
      | nil =>
        rw [forceScopeDeps] at h
        cases h
        exact StepOK.refl _
      | cons dep rest =>
        rw [forceScopeDeps] at h
        split at h
        · cases h
        next d sA hv1 =>
          exact (ihv _ _ _ _ _ hv1).trans (ihfd _ _ _ h)

/-- The root loop is a simulation step. -/
theorem visitAll_stepOK :
    ∀ (fuel : Nat) l s s', visitAll fuel s l = .ok s' → StepOK s s' := by
  intro fuel
  induction fuel with
  | zero =>
    intro l s s' h
    rw [visitAll] at h
    cases h
  | succ fuel ih =>
    intro l s s' h
    cases l with
    | nil =>
      rw [visitAll] at h
      cases h
      exact StepOK.refl _
    | cons r rest =>
      rw [visitAll] at h
      split at h
      · cases h
      next d sA hv1 =>
        exact ((solver_stepOK fuel).1 _ _ _ _ _ hv1).trans (ih _ _ _ h)

theorem idUnseenCount_markSeen_lt {s : SolveState} {id : IdentifierId}
    {node : IdentifierNode} (hlk : lookupId s.st id = some node)
    (hseen : node.seen = false) :
    idUnseenCount (markSeen s id).st < idUnseenCount s.st :=
  unseenLen_aupdate_lt s.st.identifiers id _ (fun _ => rfl) node hlk hseen

theorem idUnseenCount_recordMemoized (s : SolveState) (id : IdentifierId) :
    idUnseenCount (recordMemoized s id).st = idUnseenCount s.st :=
  unseenLen_aupdate_eq s.st.identifiers id _ (fun _ => rfl)

theorem scopeUnseenCount_scopeMarkSeen_lt {s : SolveState} {sc : ScopeId}
    {snode : ScopeNode} (hlk : lookupScope s.st sc = some snode)
    (hseen : snode.seen = false) :
    scopeUnseenCount (scopeMarkSeen s sc).st < scopeUnseenCount s.st :=
  unseenLenBy_aupdate_lt _ s.st.scopes sc _ (fun _ => rfl) snode hlk hseen

theorem solveWeight_pos (M : Nat) (s : SolveState) : 2 ≤ solveWeight M s := by
  unfold solveWeight
  omega

theorem solveWeight_mono {a b : SolveState} (M : Nat) (h : StepOK a b) :
    solveWeight M b ≤ solveWeight M a := by
  unfold solveWeight
  have h1 := h.unseenMono
  have h2 := h.scUnseenMono
  have := Nat.mul_le_mul_right (M + 2)
    (Nat.add_le_add h1 h2)
  omega

theorem solveWeight_markSeen {s : SolveState} {id : IdentifierId}
    {node : IdentifierNode} (M : Nat) (hlk : lookupId s.st id = some node)
    (hseen : node.seen = false) :
    solveWeight M (markSeen s id) + (M + 2) ≤ solveWeight M s := by
  unfold solveWeight
  have h1 := idUnseenCount_markSeen_lt hlk hseen
  have h2 : scopeUnseenCount (markSeen s id).st = scopeUnseenCount s.st := rfl
  rw [h2]
  have hle : idUnseenCount (markSeen s id).st + scopeUnseenCount s.st + 1 ≤
      idUnseenCount s.st + scopeUnseenCount s.st := by omega
  have := Nat.mul_le_mul_right (M + 2) hle
  have hx : (idUnseenCount (markSeen s id).st + scopeUnseenCount s.st + 1) *
      (M + 2) = (idUnseenCount (markSeen s id).st + scopeUnseenCount s.st) *
      (M + 2) + (M + 2) := by ring
  omega

theorem solveWeight_recordMemoized (M : Nat) (s : SolveState)
    (id : IdentifierId) :
    solveWeight M (recordMemoized s id) = solveWeight M s := by
  unfold solveWeight
  rw [idUnseenCount_recordMemoized]
  rfl

theorem solveWeight_scopeMarkSeen {s : SolveState} {sc : ScopeId}
    {snode : ScopeNode} (M : Nat) (hlk : lookupScope s.st sc = some snode)
    (hseen : snode.seen = false) :
    solveWeight M (scopeMarkSeen s sc) + (M + 2) ≤ solveWeight M s := by
  unfold solveWeight
  have h1 := scopeUnseenCount_scopeMarkSeen_lt hlk hseen
  have h2 : idUnseenCount (scopeMarkSeen s sc).st = idUnseenCount s.st := rfl
  rw [h2]
  have hle : idUnseenCount s.st + scopeUnseenCount (scopeMarkSeen s sc).st +
      1 ≤ idUnseenCount s.st + scopeUnseenCount s.st := by omega
  have := Nat.mul_le_mul_right (M + 2) hle
  have hx : (idUnseenCount s.st + scopeUnseenCount (scopeMarkSeen s sc).st +
      1) * (M + 2) = (idUnseenCount s.st +
      scopeUnseenCount (scopeMarkSeen s sc).st) * (M + 2) + (M + 2) := by
    ring
  omega

/-- Boundedness of list lengths is preserved along simulation steps. -/
theorem Bounded.mono_b {M : Nat} {a b : SolveState} (hs : StepOK a b)
    (hb : Bounded M a) : Bounded M b where
  idBounded j n' hj := by
    have hsome : (lookupId a.st j).isSome = true := by
      rw [← hs.idDom j, hj]; rfl
    obtain ⟨n, ha⟩ := Option.isSome_iff_exists.mp hsome
    obtain ⟨m, hbm, _, hdep, hscs⟩ := hs.idShape j n ha
    have hmn : m = n' := Option.some_injective _ (hbm.symm.trans hj)
    subst hmn
    rw [hdep, hscs]
    exact hb.idBounded j n ha
  scBounded j n' hj := by
    have hsome : (lookupScope a.st j).isSome = true := by
      rw [← hs.scDom j, hj]; rfl
    obtain ⟨n, ha⟩ := Option.isSome_iff_exists.mp hsome
    obtain ⟨m, hbm, hdep⟩ := hs.scShape j n ha
    have hmn : m = n' := Option.some_injective _ (hbm.symm.trans hj)
    subst hmn
    rw [hdep]
    exact hb.scBounded j n ha

/-- Coverage is preserved along simulation steps. -/
theorem Covered.mono_c {a b : SolveState} (hs : StepOK a b) (hc : Covered a) :
    Covered b where
  depsCovered j n' hb d hd := by
    have hsome : (lookupId a.st j).isSome = true := by
      rw [← hs.idDom j, hb]; rfl
    obtain ⟨n, ha⟩ := Option.isSome_iff_exists.mp hsome
    obtain ⟨m, hbm, _, hdep, _⟩ := hs.idShape j n ha
    have hmn : m = n' := Option.some_injective _ (hbm.symm.trans hb)
    subst hmn
    rw [hs.idDom d]
    exact hc.depsCovered j n ha d (hdep ▸ hd)
  scopesCovered j n' hb sc hsc := by
    have hsome : (lookupId a.st j).isSome = true := by
      rw [← hs.idDom j, hb]; rfl
    obtain ⟨n, ha⟩ := Option.isSome_iff_exists.mp hsome
    obtain ⟨m, hbm, _, _, hscs⟩ := hs.idShape j n ha
    have hmn : m = n' := Option.some_injective _ (hbm.symm.trans hb)
    subst hmn
    rw [hs.scDom sc]
    exact hc.scopesCovered j n ha sc (hscs ▸ hsc)
  scopeDepsCovered j n' hb d hd := by
    have hsome : (lookupScope a.st j).isSome = true := by
      rw [← hs.scDom j, hb]; rfl
    obtain ⟨n, ha⟩ := Option.isSome_iff_exists.mp hsome
    obtain ⟨m, hbm, hdep⟩ := hs.scShape j n ha
    have hmn : m = n' := Option.some_injective _ (hbm.symm.trans hb)
    subst hmn
    rw [hs.idDom d]
    exact hc.scopeDepsCovered j n ha d (hdep ▸ hd)

/-- Pending marks survive simulation steps. -/
theorem Pending.mono_p {a b : SolveState} {P : List IdentifierId}
    (hs : StepOK a b) (hp : Pending a P) : Pending b P := by
  intro j hj
  obtain ⟨n, ha, hseen⟩ := hp j hj
  exact ⟨n, hs.idPres j n ha hseen, hseen⟩

/-- Termination of the escape solver: with fuel at least the solver weight of
the state, no solver function runs out of fuel.  This is the `seen`-marks
termination argument of the source, cycles included. -/
theorem solver_fuel (M : Nat) (fuel : Nat) :
    (∀ s id f, Bounded M s → solveWeight M s ≤ fuel →
      visit fuel s id f ≠ .error .outOfFuel) ∧
    (∀ l s, Bounded M s → solveWeight M s + l.length ≤ fuel →
      visitDeps fuel s l ≠ .error .outOfFuel) ∧
    (∀ l s, Bounded M s → solveWeight M s + l.length ≤ fuel →
      forceScopes fuel s l ≠ .error .outOfFuel) ∧
    (∀ sc s, Bounded M s → solveWeight M s ≤ fuel →
      forceScope fuel s sc ≠ .error .outOfFuel) ∧
    (∀ l s, Bounded M s → solveWeight M s + l.length ≤ fuel →
      forceScopeDeps fuel s l ≠ .error .outOfFuel) := by
  induction fuel with
  | zero =>
    refine ⟨?_, ?_, ?_, ?_, ?_⟩
    · intro s id f _ hle
      have := solveWeight_pos M s
      omega
    · intro l s _ hle
      have := solveWeight_pos M s
      omega
    · intro l s _ hle
      have := solveWeight_pos M s
      omega
    · intro sc s _ hle
      have := solveWeight_pos M s
      omega
    · intro l s _ hle
      have := solveWeight_pos M s
      omega
  | succ fuel ih =>
    obtain ⟨ihv, ihd, ihfs, ihf, ihfd⟩ := ih
    refine ⟨?_, ?_, ?_, ?_, ?_⟩
    · intro s id f hb hle heq
      rw [visit] at heq
      split at heq
      · simp at heq
      next node hlk =>
        split at heq
        · cases heq
        next hseen =>
          have hseen' : node.seen = false := Bool.not_eq_true _ ▸ hseen
          have hw := solveWeight_markSeen M hlk hseen'
          have hbM : Bounded M (markSeen s id) :=
            hb.mono_b (stepOK_markSeen s id node hlk hseen')
          have hlen := (hb.idBounded id node hlk).1
          have hlenS := (hb.idBounded id node hlk).2
          split at heq
          next e hvd =>
            injection heq with he
            subst he
            exact ihd _ _ hbM (by omega) hvd
          next hasDep s2 hvd =>
            have hs2 : StepOK (markSeen s id) s2 :=
              (solver_stepOK fuel).2.1 _ _ _ _ hvd
            have hsAll : StepOK s s2 :=
              (stepOK_markSeen s id node hlk hseen').trans hs2
            have hw2 : solveWeight M s2 ≤ solveWeight M (markSeen s id) :=
              solveWeight_mono M hs2
            split at heq
            next hdec =>
              split at heq
              next e hfs =>
                injection heq with he
                subst he
                have hpush := stepOK_pushMemo hsAll id node hlk hseen'
                  (memoDecision_ne_never hdec)
                refine ihfs _ _ (hb.mono_b hpush) ?_ hfs
                rw [solveWeight_recordMemoized]
                omega
              next s4 hfs => cases heq
            next hdec => cases heq
    · intro l s hb hle heq
      cases l with
      | nil => rw [visitDeps] at heq; cases heq
      | cons dep rest =>
        rw [visitDeps] at heq
        split at heq
        next e hv1 =>
          injection heq with he
          subst he
          exact ihv _ _ _ hb (by simp at hle; omega) hv1
        next d sA hv1 =>
          have hsA : StepOK s sA := (solver_stepOK fuel).1 _ _ _ _ _ hv1
          split at heq
          next e hd2 =>
            injection heq with he
            subst he
            refine ihd _ _ (hb.mono_b hsA) ?_ hd2
            have := solveWeight_mono M hsA
            simp at hle
            omega
          next has sB hd2 => cases heq
    · intro l s hb hle heq
      cases l with
      | nil => rw [forceScopes] at heq; cases heq
      | cons sc rest =>
        rw [forceScopes] at heq
        split at heq
        next e hf1 =>
          injection heq with he
          subst he
          exact ihf _ _ hb (by simp at hle; omega) hf1
        next sA hf1 =>
          have hsA : StepOK s sA := (solver_stepOK fuel).2.2.2.1 _ _ _ hf1
          refine ihfs _ _ (hb.mono_b hsA) ?_ heq
          have := solveWeight_mono M hsA
          simp at hle
          omega
    · intro sc s hb hle heq
      rw [forceScope] at heq
      split at heq
      · simp at heq
      next snode hlk =>
        split at heq
        · cases heq
        next hseen =>
          have hseen' : snode.seen = false := Bool.not_eq_true _ ▸ hseen
          have hw := solveWeight_scopeMarkSeen M hlk hseen'
          have hbM : Bounded M (scopeMarkSeen s sc) :=
            hb.mono_b (stepOK_scopeMarkSeen s sc snode hlk hseen')
          have hlen := hb.scBounded sc snode hlk
          exact ihfd _ _ hbM (by omega) heq
    · intro l s hb hle heq
      cases l with
      | nil => rw [forceScopeDeps] at heq; cases heq
      | cons dep rest =>
        rw [forceScopeDeps] at heq
        split at heq
        next e hv1 =>
          injection heq with he
          subst he
          exact ihv _ _ _ hb (by simp at hle; omega) hv1
        next d sA hv1 =>
          have hsA : StepOK s sA := (solver_stepOK fuel).1 _ _ _ _ _ hv1
          refine ihfd _ _ (hb.mono_b hsA) ?_ heq
          have := solveWeight_mono M hsA
          simp at hle
          omega

/-- Termination for the root loop. -/
theorem visitAll_fuel (M : Nat) :
    ∀ (fuel : Nat) l s, Bounded M s → solveWeight M s + l.length ≤ fuel →
      visitAll fuel s l ≠ .error .outOfFuel := by
  intro fuel
  induction fuel with
  | zero =>
    intro l s _ hle
    have := solveWeight_pos M s
    omega
  | succ fuel ih =>
    intro l s hb hle heq
    cases l with
    | nil => rw [visitAll] at heq; cases heq
    | cons r rest =>
      rw [visitAll] at heq
      split at heq
      next e hv1 =>
        injection heq with he
        subst he
        exact (solver_fuel M fuel).1 _ _ _ hb (by simp at hle; omega) hv1
      next d sA hv1 =>
        have hsA : StepOK s sA := (solver_stepOK fuel).1 _ _ _ _ _ hv1
        refine ih _ _ (hb.mono_b hsA) ?_ heq
        have := solveWeight_mono M hsA
        simp at hle
        omega

/-- Under coverage and sufficient fuel, the solver cannot fail: the
missing-node invariants are unreachable and fuel suffices. -/
theorem solver_success (M : Nat) (fuel : Nat) :
    (∀ s id f e, Covered s → Bounded M s → (lookupId s.st id).isSome = true →
      solveWeight M s ≤ fuel → visit fuel s id f = .error e → False) ∧
    (∀ l s e, Covered s → Bounded M s →
      (∀ d, d ∈ l → (lookupId s.st d).isSome = true) →
      solveWeight M s + l.length ≤ fuel →
      visitDeps fuel s l = .error e → False) ∧
    (∀ l s e, Covered s → Bounded M s →
      (∀ sc, sc ∈ l → (lookupScope s.st sc).isSome = true) →
      solveWeight M s + l.length ≤ fuel →
      forceScopes fuel s l = .error e → False) ∧
    (∀ sc s e, Covered s → Bounded M s →
      (lookupScope s.st sc).isSome = true →
      solveWeight M s ≤ fuel → forceScope fuel s sc = .error e → False) ∧
    (∀ l s e, Covered s → Bounded M s →
      (∀ d, d ∈ l → (lookupId s.st d).isSome = true) →
      solveWeight M s + l.length ≤ fuel →
      forceScopeDeps fuel s l = .error e → False) := by
  induction fuel with
  | zero =>
    refine ⟨?_, ?_, ?_, ?_, ?_⟩
    · intro s id f e _ _ _ hle
      have := solveWeight_pos M s
      omega
    · intro l s e _ _ _ hle
      have := solveWeight_pos M s
      omega
    · intro l s e _ _ _ hle
      have := solveWeight_pos M s
      omega
    · intro sc s e _ _ _ hle
      have := solveWeight_pos M s
      omega
    · intro l s e _ _ _ hle
      have := solveWeight_pos M s
      omega
  | succ fuel ih =>
    obtain ⟨ihv, ihd, ihfs, ihf, ihfd⟩ := ih
    refine ⟨?_, ?_, ?_, ?_, ?_⟩
    · intro s id f e hc hb hdom hle heq
      rw [visit] at heq
      split at heq
      next hlk => rw [hlk] at hdom; cases hdom
      next node hlk =>
        split at heq
        · cases heq
        next hseen =>
          have hseen' : node.seen = false := Bool.not_eq_true _ ▸ hseen
          have hstep := stepOK_markSeen s id node hlk hseen'
          have hw := solveWeight_markSeen M hlk hseen'
          have hlen := (hb.idBounded id node hlk).1
          have hlenS := (hb.idBounded id node hlk).2
          have hdomM : ∀ d, d ∈ node.dependencies →
              (lookupId (markSeen s id).st d).isSome = true := by
            intro d hd
            rw [hstep.idDom d]
            exact hc.depsCovered id node hlk d hd
          split at heq
          next e0 hvd =>
            injection heq with he
            subst he
            exact ihd _ _ _ (hc.mono_c hstep) (hb.mono_b hstep) hdomM
              (by omega) hvd
          next hasDep s2 hvd =>
            have hs2 : StepOK (markSeen s id) s2 :=
              (solver_stepOK fuel).2.1 _ _ _ _ hvd
            have hsAll : StepOK s s2 := hstep.trans hs2
            have hw2 : solveWeight M s2 ≤ solveWeight M (markSeen s id) :=
              solveWeight_mono M hs2
            split at heq
            next hdec =>
              split at heq
              next e0 hfs =>
                injection heq with he
                subst he
                have hpush := stepOK_pushMemo hsAll id node hlk hseen'
                  (memoDecision_ne_never hdec)
                refine ihfs _ _ _ (hc.mono_c hpush) (hb.mono_b hpush) ?_ ?_ hfs
                · intro sc hsc
                  rw [hpush.scDom sc]
                  exact hc.scopesCovered id node hlk sc hsc
                · rw [solveWeight_recordMemoized]
                  omega
              next s4 hfs => cases heq
            next hdec => cases heq
    · intro l s e hc hb hdom hle heq
      cases l with
      | nil => rw [visitDeps] at heq; cases heq
      | cons dep rest =>
        rw [visitDeps] at heq
        split at heq
        next e0 hv1 =>
          injection heq with he
          subst he
          exact ihv _ _ _ _ hc hb (hdom dep (List.mem_cons_self dep rest))
            (by simp at hle; omega) hv1
        next d sA hv1 =>
          have hsA : StepOK s sA := (solver_stepOK fuel).1 _ _ _ _ _ hv1
          split at heq
          next e0 hd2 =>
            injection heq with he
            subst he
            refine ihd _ _ _ (hc.mono_c hsA) (hb.mono_b hsA) ?_ ?_ hd2
            · intro d' hd'
              rw [hsA.idDom d']
              exact hdom d' (List.mem_cons_of_mem dep hd')
            · have := solveWeight_mono M hsA
              simp at hle
              omega
          next has sB hd2 => cases heq
    · intro l s e hc hb hdom hle heq
      cases l with
      | nil => rw [forceScopes] at heq; cases heq
      | cons sc rest =>
        rw [forceScopes] at heq
        split at heq
        next e0 hf1 =>
          injection heq with he
          subst he
          exact ihf _ _ _ hc hb (hdom sc (List.mem_cons_self sc rest))
            (by simp at hle; omega) hf1
        next sA hf1 =>
          have hsA : StepOK s sA := (solver_stepOK fuel).2.2.2.1 _ _ _ hf1
          refine ihfs _ _ _ (hc.mono_c hsA) (hb.mono_b hsA) ?_ ?_ heq
          · intro sc' hsc'
            rw [hsA.scDom sc']
            exact hdom sc' (List.mem_cons_of_mem sc hsc')
          · have := solveWeight_mono M hsA
            simp at hle
            omega
    · intro sc s e hc hb hdom hle heq
      rw [forceScope] at heq
      split at heq
      next hlk => rw [hlk] at hdom; cases hdom
      next snode hlk =>
        split at heq
        · cases heq
        next hseen =>
          have hseen' : snode.seen = false := Bool.not_eq_true _ ▸ hseen
          have hstep := stepOK_scopeMarkSeen s sc snode hlk hseen'
          have hw := solveWeight_scopeMarkSeen M hlk hseen'
          have hlen := hb.scBounded sc snode hlk
          refine ihfd _ _ _ (hc.mono_c hstep) (hb.mono_b hstep) ?_ ?_ heq
          · intro d hd
            rw [hstep.idDom d]
            exact hc.scopeDepsCovered sc snode hlk d hd
          · omega
    · intro l s e hc hb hdom hle heq
      cases l with
      | nil => rw [forceScopeDeps] at heq; cases heq
      | cons dep rest =>
        rw [forceScopeDeps] at heq
        split at heq
        next e0 hv1 =>
          injection heq with he
          subst he
          exact ihv _ _ _ _ hc hb (hdom dep (List.mem_cons_self dep rest))
            (by simp at hle; omega) hv1
        next d sA hv1 =>
          have hsA : StepOK s sA := (solver_stepOK fuel).1 _ _ _ _ _ hv1
          refine ihfd _ _ _ (hc.mono_c hsA) (hb.mono_b hsA) ?_ ?_ heq
          · intro d' hd'
            rw [hsA.idDom d']
            exact hdom d' (List.mem_cons_of_mem dep hd')
          · have := solveWeight_mono M hsA
            simp at hle
            omega

theorem memoDecision_memoized (hasDep force : Bool) :
    memoDecision .Memoized hasDep force = true := by
  simp [memoDecision]

/-- The decided-memoized invariant: after any successful solver call, every
seen `Memoized`-level node outside the pending frames has been decided
memoized and recorded in the output set. -/
theorem solver_seenGood (fuel : Nat) :
    (∀ s id f b s' P, visit fuel s id f = .ok (b, s') →
      SeenGoodExc s P → Pending s P → SeenGoodExc s' P) ∧
    (∀ l s b s' P, visitDeps fuel s l = .ok (b, s') →
      SeenGoodExc s P → Pending s P → SeenGoodExc s' P) ∧
    (∀ l s s' P, forceScopes fuel s l = .ok s' →
      SeenGoodExc s P → Pending s P → SeenGoodExc s' P) ∧
    (∀ sc s s' P, forceScope fuel s sc = .ok s' →
      SeenGoodExc s P → Pending s P → SeenGoodExc s' P) ∧
    (∀ l s s' P, forceScopeDeps fuel s l = .ok s' →
      SeenGoodExc s P → Pending s P → SeenGoodExc s' P) := by
  induction fuel with
  | zero =>
    refine ⟨?_, ?_, ?_, ?_, ?_⟩
    · intro s id f b s' P h; rw [visit] at h; cases h
    · intro l s b s' P h; rw [visitDeps] at h; cases h
    · intro l s s' P h; rw [forceScopes] at h; cases h
    · intro sc s s' P h; rw [forceScope] at h; cases h
    · intro l s s' P h; rw [forceScopeDeps] at h; cases h
  | succ fuel ih =>
    obtain ⟨ihv, ihd, ihfs, ihf, ihfd⟩ := ih
    refine ⟨?_, ?_, ?_, ?_, ?_⟩
    · intro s id f b s' P h hg hp
      rw [visit] at h
      split at h
      · cases h
      next node hlk =>
        split at h
        · cases h
          exact hg
        next hseen =>
          have hseen' : node.seen = false := Bool.not_eq_true _ ▸ hseen
          have hid_notP : id ∉ P := by
            intro hid
            obtain ⟨n, hn, hns⟩ := hp id hid
            have : n = node := Option.some_injective _ (hn.symm.trans hlk)
            rw [this, hseen'] at hns
            cases hns
          have hstep := stepOK_markSeen s id node hlk hseen'
          have hlkM : lookupId (markSeen s id).st id =
              some { node with seen := true, memoized := false } := by
            unfold markSeen
            rw [lookupId_updateId, if_pos rfl, hlk]
            rfl
          have hgM : SeenGoodExc (markSeen s id) (id :: P) := by
            intro j n hj hjs hjl hjP
            have hjne : j ≠ id := fun hji => hjP (hji ▸ List.mem_cons_self id P)
            have hjP' : j ∉ P := fun hx => hjP (List.mem_cons_of_mem id hx)
            have hlkj : lookupId s.st j = some n := by
              have : lookupId (markSeen s id).st j = lookupId s.st j := by
                unfold markSeen
                rw [lookupId_updateId, if_neg hjne]
              rw [← this]
              exact hj
            exact hg j n hlkj hjs hjl hjP'
          have hpM : Pending (markSeen s id) (id :: P) := by
            intro j hj
            rcases List.mem_cons.mp hj with hji | hjP
            · subst hji
              exact ⟨_, hlkM, rfl⟩
            · obtain ⟨n, hn, hns⟩ := hp j hjP
              have hjne : j ≠ id := fun hji => hid_notP (hji ▸ hjP)
              refine ⟨n, ?_, hns⟩
              unfold markSeen
              rw [lookupId_updateId, if_neg hjne]
              exact hn
          split at h
          · cases h
          next hasDep s2 hvd =>
            have hs2 : StepOK (markSeen s id) s2 :=
              (solver_stepOK fuel).2.1 _ _ _ _ hvd
            have hg2 : SeenGoodExc s2 (id :: P) := ihd _ _ _ _ _ hvd hgM hpM
            have hp2 : Pending s2 (id :: P) := hpM.mono_p hs2
            have hlk2 : lookupId s2.st id =
                some { node with seen := true, memoized := false } :=
              hs2.idPres id _ hlkM rfl
            split at h
            next hdec =>
              split at h
              · cases h
              next s4 hfs =>
                cases h
                have hlk3 : lookupId (recordMemoized s2 id).st id =
                    some { node with seen := true, memoized := true } := by
                  unfold recordMemoized
                  rw [lookupId_updateId, if_pos rfl, hlk2]
                  rfl
                have hg3 : SeenGoodExc (recordMemoized s2 id) (id :: P) := by
                  intro j n hj hjs hjl hjP
                  have hjne : j ≠ id :=
                    fun hji => hjP (hji ▸ List.mem_cons_self id P)
                  have hlkj : lookupId s2.st j = some n := by
                    have : lookupId (recordMemoized s2 id).st j =
                        lookupId s2.st j := by
                      unfold recordMemoized
                      rw [lookupId_updateId, if_neg hjne]
                    rw [← this]
                    exact hj
                  obtain ⟨hm, hmem⟩ := hg2 j n hlkj hjs hjl hjP
                  exact ⟨hm, List.mem_append_left _ hmem⟩
                have hp3 : Pending (recordMemoized s2 id) (id :: P) := by
                  intro j hj
                  rcases List.mem_cons.mp hj with hji | hjP
                  · subst hji
                    exact ⟨_, hlk3, rfl⟩
                  · obtain ⟨n, hn, hns⟩ := hp2 j (List.mem_cons_of_mem id hjP)
                    by_cases hjne : j = id
                    · subst hjne
                      exact ⟨_, hlk3, rfl⟩
                    · refine ⟨n, ?_, hns⟩
                      unfold recordMemoized
                      rw [lookupId_updateId, if_neg hjne]
                      exact hn
                have hs4 : StepOK (recordMemoized s2 id) s' :=
                  (solver_stepOK fuel).2.2.1 _ _ _ hfs
                have hg4 : SeenGoodExc s' (id :: P) := ihfs _ _ _ _ hfs hg3 hp3
                intro j n hj hjs hjl hjP
                by_cases hji : j = id
                · subst hji
                  have hlk4 : lookupId s'.st j =
                      some { node with seen := true, memoized := true } :=
                    hs4.idPres j _ hlk3 rfl
                  have hn4 : n = { node with seen := true, memoized := true } :=
                    Option.some_injective _ (hj.symm.trans hlk4)
                  subst hn4
                  refine ⟨rfl, hs4.memoMono j ?_⟩
                  unfold recordMemoized
                  exact List.mem_append_right _ (List.mem_singleton_self j)
                · exact hg4 j n hj hjs hjl
                    (fun hx => (List.mem_cons.mp hx).elim (fun hh => hji hh)
                      (fun hh => hjP hh))
            next hdec =>
              cases h
              intro j n hj hjs hjl hjP
              by_cases hji : j = id
              · subst hji
                have hn2 : n = { node with seen := true, memoized := false } :=
                  Option.some_injective _ (hj.symm.trans hlk2)
                have hlev : node.level = .Memoized := by
                  have := hn2 ▸ hjl
                  exact this
                exact absurd (hlev ▸ memoDecision_memoized hasDep f) hdec
              · exact hg2 j n hj hjs hjl
                  (fun hx => (List.mem_cons.mp hx).elim (fun hh => hji hh)
                    (fun hh => hjP hh))
    · intro l s b s' P h hg hp
      cases l with
      | nil =>
        rw [visitDeps] at h
        cases h
        exact hg
      | cons dep rest =>
        rw [visitDeps] at h
        split at h
        · cases h
        next d sA hv1 =>
          split at h
          · cases h
          next has sB hd2 =>
            cases h
            have hsA : StepOK s sA := (solver_stepOK fuel).1 _ _ _ _ _ hv1
            exact ihd _ _ _ _ _ hd2 (ihv _ _ _ _ _ _ hv1 hg hp) (hp.mono_p hsA)
    · intro l s s' P h hg hp
      cases l with
      | nil =>
        rw [forceScopes] at h
        cases h
        exact hg
      | cons sc rest =>
        rw [forceScopes] at h
        split at h
        · cases h
        next sA hf1 =>
          have hsA : StepOK s sA := (solver_stepOK fuel).2.2.2.1 _ _ _ hf1
          exact ihfs _ _ _ _ h (ihf _ _ _ _ hf1 hg hp) (hp.mono_p hsA)
    · intro sc s s' P h hg hp
      rw [forceScope] at h
      split at h
      · cases h
      next snode hlk =>
        split at h
        · cases h
          exact hg
        next hseen =>
          have hseen' : snode.seen = false := Bool.not_eq_true _ ▸ hseen
          have hstep := stepOK_scopeMarkSeen s sc snode hlk hseen'
          have hgM : SeenGoodExc (scopeMarkSeen s sc) P := by
            intro j n hj hjs hjl hjP
            exact hg j n hj hjs hjl hjP
          exact ihfd _ _ _ _ h hgM (hp.mono_p hstep)
    · intro l s s' P h hg hp
      cases l with
      | nil =>
        rw [forceScopeDeps] at h
        cases h
        exact hg
      | cons dep rest =>
        rw [forceScopeDeps] at h
        split at h
        · cases h
        next d sA hv1 =>
          have hsA : StepOK s sA := (solver_stepOK fuel).1 _ _ _ _ _ hv1
          exact ihfd _ _ _ _ h (ihv _ _ _ _ _ _ hv1 hg hp) (hp.mono_p hsA)

/-- After a successful `visit` of an identifier that has a node, the node is
marked seen. -/
theorem visit_seen_after {fuel : Nat} {s : SolveState} {id : IdentifierId}
    {f b : Bool} {s' : SolveState} (h : visit fuel s id f = .ok (b, s'))
    {node : IdentifierNode} (hlk : lookupId s.st id = some node) :
    ∃ n', lookupId s'.st id = some n' ∧ n'.seen = true := by
  cases fuel with
  | zero => rw [visit] at h; cases h
  | succ fuel =>
    rw [visit] at h
    split at h
    next hlk2 => rw [hlk2] at hlk; cases hlk
    next node2 hlk2 =>
      have hn2 : node2 = node := Option.some_injective _ (hlk2.symm.trans hlk)
      subst hn2
      split at h
      next hseen =>
        cases h
        exact ⟨node2, hlk, hseen⟩
      next hseen =>
        have hseen' : node2.seen = false := Bool.not_eq_true _ ▸ hseen
        have hlkM : lookupId (markSeen s id).st id =
            some { node2 with seen := true, memoized := false } := by
          unfold markSeen
          rw [lookupId_updateId, if_pos rfl, hlk]
          rfl
        split at h
        · cases h
        next hasDep s2 hvd =>
          have hs2 : StepOK (markSeen s id) s2 :=
            (solver_stepOK fuel).2.1 _ _ _ _ hvd
          have hlk2' := hs2.idPres id _ hlkM rfl
          split at h
          next hdec =>
            split at h
            · cases h
            next s4 hfs =>
              cases h
              have hlk3 : lookupId (recordMemoized s2 id).st id =
                  some { node2 with seen := true, memoized := true } := by
                unfold recordMemoized
                rw [lookupId_updateId, if_pos rfl, hlk2']
                rfl
              have hs4 : StepOK (recordMemoized s2 id) s' :=
                (solver_stepOK fuel).2.2.1 _ _ _ hfs
              exact ⟨_, hs4.idPres id _ hlk3 rfl, rfl⟩
          next hdec =>
            cases h
            exact ⟨_, hlk2', rfl⟩

/-- After the root loop, every processed identifier that had a node is seen. -/
theorem visitAll_seen :
    ∀ (fuel : Nat) l s s', visitAll fuel s l = .ok s' → ∀ r, r ∈ l →
      (lookupId s.st r).isSome = true →
      ∃ n', lookupId s'.st r = some n' ∧ n'.seen = true := by
  intro fuel
  induction fuel with
  | zero =>
    intro l s s' h
    rw [visitAll] at h
    cases h
  | succ fuel ih =>
    intro l s s' h r hr hdom
    cases l with
    | nil => cases hr
    | cons r0 rest =>
      rw [visitAll] at h
      split at h
      · cases h
      next d sA hv1 =>
        have hsA : StepOK s sA := (solver_stepOK fuel).1 _ _ _ _ _ hv1
        have hsAll : StepOK sA s' := visitAll_stepOK fuel _ _ _ h
        rcases List.mem_cons.mp hr with hr0 | hrest
        · subst hr0
          obtain ⟨node, hlk⟩ := Option.isSome_iff_exists.mp hdom
          obtain ⟨n', hlk', hseen'⟩ := visit_seen_after hv1 hlk
          exact ⟨n', hsAll.idPres r n' hlk' hseen', hseen'⟩
        · refine ih rest sA s' h r hrest ?_
          rw [hsA.idDom r]
          exact hdom

/-- The decided-memoized invariant holds across the root loop. -/
theorem visitAll_seenGood :
    ∀ (fuel : Nat) l s s' P, visitAll fuel s l = .ok s' →
      SeenGoodExc s P → Pending s P → SeenGoodExc s' P := by
  intro fuel
  induction fuel with
  | zero =>
    intro l s s' P h
    rw [visitAll] at h
    cases h
  | succ fuel ih =>
    intro l s s' P h hg hp
    cases l with
    | nil =>
      rw [visitAll] at h
      cases h
      exact hg
    | cons r0 rest =>
      rw [visitAll] at h
      split at h
      · cases h
      next d sA hv1 =>
        have hsA : StepOK s sA := (solver_stepOK fuel).1 _ _ _ _ _ hv1
        exact ih rest sA s' P h
          ((solver_seenGood fuel).1 _ _ _ _ _ _ hv1 hg hp) (hp.mono_p hsA)

/-! ## Collector lemmas -/

theorem lookupId_ensureScope (s : State) (scope : ReactiveScope)
    (j : IdentifierId) : lookupId (ensureScope s scope) j = lookupId s j := by
  unfold ensureScope
  split <;> rfl

theorem definitions_ensureScope (s : State) (scope : ReactiveScope) :
    (ensureScope s scope).definitions = s.definitions := by
  unfold ensureScope
  split <;> rfl

theorem returned_ensureScope (s : State) (scope : ReactiveScope) :
    (ensureScope s scope).returned = s.returned := by
  unfold ensureScope
  split <;> rfl

/-- Lemma: `visitOperand` only touches the scope graph and the node's `scopes` set:
definitions, returned and node existence are unchanged. -/
theorem visitOperand_ok {gps : GetPlaceScope} {s : State}
    {iid : InstructionId} {place : Place} {identifier : IdentifierId}
    {t : State} (h : State.visitOperand gps s iid place identifier = .ok t) :
    t.definitions = s.definitions ∧ t.returned = s.returned ∧
    ∀ j, (lookupId t j).isSome = (lookupId s j).isSome := by
  unfold State.visitOperand at h
  split at h
  · cases h
    exact ⟨rfl, rfl, fun j => rfl⟩
  next scope hgps =>
    split at h
    · cases h
    next node hlk =>
      cases h
      refine ⟨definitions_ensureScope s scope, returned_ensureScope s scope,
        fun j => ?_⟩
      rw [show lookupId (updateId (ensureScope s scope) identifier _) j =
          _ from lookupId_updateId _ _ _ j]
      by_cases hj : j = identifier
      · rw [if_pos hj, isSomeMap, hj, lookupId_ensureScope]
      · rw [if_neg hj, lookupId_ensureScope]

theorem visitRValues_ok {gps : GetPlaceScope} {iid : InstructionId} :
    ∀ {rvalues : List Place} {s t : State},
      visitRValues gps iid s rvalues = .ok t →
      t.definitions = s.definitions ∧ t.returned = s.returned ∧
      ∀ j, (lookupId t j).isSome = (lookupId s j).isSome := by
  intro rvalues
  induction rvalues with
  | nil =>
    intro s t h
    rw [visitRValues] at h
    cases h
    exact ⟨rfl, rfl, fun j => rfl⟩
  | cons operand rest ih =>
    intro s t h
    rw [visitRValues] at h
    split at h
    · cases h
    next s' hvo =>
      obtain ⟨hd1, hr1, hi1⟩ := visitOperand_ok hvo
      obtain ⟨hd2, hr2, hi2⟩ := ih h
      exact ⟨hd2.trans hd1, hr2.trans hr1, fun j => (hi2 j).trans (hi1 j)⟩

theorem addDeps_pres (lvalueId : IdentifierId) :
    ∀ (rvalues : List Place) (s : State),
      (addDeps lvalueId s rvalues).definitions = s.definitions ∧
      (addDeps lvalueId s rvalues).returned = s.returned ∧
      ∀ j, (lookupId (addDeps lvalueId s rvalues) j).isSome =
        (lookupId s j).isSome := by
  intro rvalues
  induction rvalues with
  | nil => intro s; exact ⟨rfl, rfl, fun j => rfl⟩
  | cons operand rest ih =>
    intro s
    rw [addDeps]
    by_cases hop : resolve s.definitions operand.identifier = lvalueId
    · simp only [if_pos hop]
      exact ih s
    · simp only [if_neg hop]
      obtain ⟨hd, hr, hi⟩ :=
        ih (updateId s lvalueId (fun n =>
          { n with
            dependencies := addUnique n.dependencies
              (resolve s.definitions operand.identifier) }))
      refine ⟨hd, hr, fun j => ?_⟩
      rw [hi j, lookupId_updateId]
      by_cases hj : j = lvalueId
      · rw [if_pos hj, isSomeMap, hj]
      · rw [if_neg hj]

theorem lookupId_ensureId_self (s : State) (id : IdentifierId) :
    (lookupId (ensureId s id) id).isSome = true := by
  unfold ensureId
  split
  next node hlk => rw [hlk]; rfl
  next hlk =>
    rw [lookupId_insertId, if_pos rfl]
    rfl

theorem lookupId_ensureId_isSome (s : State) (id j : IdentifierId)
    (h : (lookupId s j).isSome = true) :
    (lookupId (ensureId s id) j).isSome = true := by
  unfold ensureId
  split
  · exact h
  next hlk =>
    rw [lookupId_insertId]
    by_cases hj : id = j
    · rw [if_pos hj]; rfl
    · rw [if_neg hj]; exact h

theorem definitions_ensureId (s : State) (id : IdentifierId) :
    (ensureId s id).definitions = s.definitions := by
  unfold ensureId
  split <;> rfl

theorem returned_ensureId (s : State) (id : IdentifierId) :
    (ensureId s id).returned = s.returned := by
  unfold ensureId
  split <;> rfl

/-- Processing one lvalue preserves definitions and returned, never deletes
nodes, and guarantees a node for the lvalue's resolved identifier. -/
theorem visitLValue_ok {gps : GetPlaceScope} {iid : InstructionId}
    {rvalues : List Place} {s : State} {lv : LValueMemoization} {t : State}
    (h : visitLValue gps iid rvalues s lv = .ok t) :
    t.definitions = s.definitions ∧ t.returned = s.returned ∧
    (∀ j, (lookupId s j).isSome = true → (lookupId t j).isSome = true) ∧
    (lookupId t (resolve s.definitions lv.place.identifier)).isSome = true := by
  unfold visitLValue at h
  obtain ⟨hd1, hr1, hi1⟩ := visitOperand_ok h
  obtain ⟨hd2, hr2, hi2⟩ := addDeps_pres (resolve s.definitions lv.place.identifier)
    rvalues (updateId (ensureId s (resolve s.definitions lv.place.identifier))
      (resolve s.definitions lv.place.identifier)
      (fun n => { n with level := joinAliases n.level lv.level }))
  have hupd : ∀ j, (lookupId (updateId
      (ensureId s (resolve s.definitions lv.place.identifier))
      (resolve s.definitions lv.place.identifier)
      (fun n => { n with level := joinAliases n.level lv.level })) j).isSome =
      (lookupId (ensureId s (resolve s.definitions lv.place.identifier))
        j).isSome := by
    intro j
    rw [lookupId_updateId]
    by_cases hj : j = resolve s.definitions lv.place.identifier
    · rw [if_pos hj, isSomeMap, hj]
    · rw [if_neg hj]
  refine ⟨hd1.trans (hd2.trans (definitions_ensureId s _)),
    hr1.trans (hr2.trans (returned_ensureId s _)), ?_, ?_⟩
  · intro j hj
    rw [hi1 j, hi2 j, hupd j]
    exact lookupId_ensureId_isSome s _ j hj
  · rw [hi1, hi2, hupd]
    exact lookupId_ensureId_self s _

/-- Processing the whole lvalue list: definitions and returned preserved,
nodes never deleted, and every lvalue's resolved identifier has a node. -/
theorem visitLValues_ok {gps : GetPlaceScope} {iid : InstructionId}
    {rvalues : List Place} :
    ∀ {lvalues : List LValueMemoization} {s t : State},
      visitLValues gps iid rvalues s lvalues = .ok t →
      t.definitions = s.definitions ∧ t.returned = s.returned ∧
      (∀ j, (lookupId s j).isSome = true → (lookupId t j).isSome = true) ∧
      ∀ lv, lv ∈ lvalues →
        (lookupId t (resolve s.definitions lv.place.identifier)).isSome =
          true := by
  intro lvalues
  induction lvalues with
  | nil =>
    intro s t h
    rw [visitLValues] at h
    cases h
    exact ⟨rfl, rfl, fun j hj => hj, fun lv hlv => absurd hlv (by simp)⟩
  | cons lv0 rest ih =>
    intro s t h
    rw [visitLValues] at h
    split at h
    · cases h
    next s' hlv0 =>
      obtain ⟨hd1, hr1, hi1, hn1⟩ := visitLValue_ok hlv0
      obtain ⟨hd2, hr2, hi2, hn2⟩ := ih h
      refine ⟨hd2.trans hd1, hr2.trans hr1,
        fun j hj => hi2 j (hi1 j hj), fun lv hlv => ?_⟩
      rcases List.mem_cons.mp hlv with hlv | hlv
      · subst hlv
        exact hi2 _ hn1
      · rw [← hd1]
        exact hn2 lv hlv

theorem definitions_recordDefinition_loadLocal (s : State)
    (instruction : ReactiveInstruction) (place lvalue : Place)
    (hval : instruction.value = .LoadLocal place)
    (hlv : instruction.lvalue = some lvalue) :
    (recordDefinition s instruction).definitions =
      (lvalue.identifier, place.identifier) :: s.definitions := by
  unfold recordDefinition
  rw [hval, hlv]

theorem lookupId_recordDefinition (s : State)
    (instruction : ReactiveInstruction) (j : IdentifierId) :
    lookupId (recordDefinition s instruction) j = lookupId s j := by
  unfold recordDefinition
  split <;> rfl

theorem returned_recordDefinition (s : State)
    (instruction : ReactiveInstruction) :
    (recordDefinition s instruction).returned = s.returned := by
  unfold recordDefinition
  split <;> rfl

/-- Lemma: after `visitInstruction`, node existence is monotone, the returned set is
unchanged, and every lvalue reported by the classification has a node for its
resolved identifier afterwards. -/
theorem visitInstructionC_ok {options : MemoizationOptions}
    {gps : GetPlaceScope} {s : State} {instruction : ReactiveInstruction}
    {t : State} {aliasing : MemoizationInputs}
    (h : visitInstructionC options gps s instruction = .ok t)
    (hcomp : computeMemoizationInputs instruction.value instruction.lvalue
      options = .ok aliasing) :
    t.returned = s.returned ∧
    (∀ j, (lookupId s j).isSome = true → (lookupId t j).isSome = true) ∧
    ∀ lv, lv ∈ aliasing.lvalues →
      (lookupId t (resolve s.definitions lv.place.identifier)).isSome =
        true := by
  unfold visitInstructionC at h
  split at h
  · cases h
  next aliasing0 hcomp0 =>
    rw [hcomp0] at hcomp
    injection hcomp with ha
    subst ha
    split at h
    · cases h
    next sR hR =>
      split at h
      · cases h
      next sL hL =>
        cases h
        obtain ⟨hdR, hrR, hiR⟩ := visitRValues_ok hR
        obtain ⟨hdL, hrL, hiL, hnL⟩ := visitLValues_ok hL
        refine ⟨?_, ?_, ?_⟩
        · rw [returned_recordDefinition, hrL, hrR]
        · intro j hj
          rw [lookupId_recordDefinition]
          exact hiL j (by rw [hiR j]; exact hj)
        · intro lv hlv
          rw [lookupId_recordDefinition, ← hdR]
          exact hnL lv hlv

theorem lookupId_visitTerminalC (s : State) (t : RTerminal)
    (j : IdentifierId) : lookupId (visitTerminalC s t) j = lookupId s j := by
  unfold visitTerminalC
  split <;> rfl

theorem visitInstructionC_mono {options : MemoizationOptions}
    {gps : GetPlaceScope} {s : State} {instruction : ReactiveInstruction}
    {t : State} (h : visitInstructionC options gps s instruction = .ok t) :
    ∀ j, (lookupId s j).isSome = true → (lookupId t j).isSome = true := by
  unfold visitInstructionC at h
  split at h
  · cases h
  next aliasing0 hcomp0 =>
    split at h
    · cases h
    next sR hR =>
      split at h
      · cases h
      next sL hL =>
        cases h
        obtain ⟨hdR, hrR, hiR⟩ := visitRValues_ok hR
        obtain ⟨hdL, hrL, hiL, hnL⟩ := visitLValues_ok hL
        intro j hj
        rw [lookupId_recordDefinition]
        exact hiL j (by rw [hiR j]; exact hj)

mutual

theorem collectStmt_mono (options : MemoizationOptions)
    (gps : GetPlaceScope) :
    ∀ (stmt : ReactiveStatement) (s t : State),
      collectStmt options gps s stmt = .ok t →
      ∀ j, (lookupId s j).isSome = true → (lookupId t j).isSome = true
  | .instruction i, s, t, h => visitInstructionC_mono h
  | .terminal tm, s, t, h => by
    rw [collectStmt] at h
    cases h
    intro j hj
    rw [lookupId_visitTerminalC]
    exact hj
  | .scope sc instrs, s, t, h =>
    collectStmts_mono options gps instrs s t (by rwa [collectStmt] at h)

theorem collectStmts_mono (options : MemoizationOptions)
    (gps : GetPlaceScope) :
    ∀ (stmts : List ReactiveStatement) (s t : State),
      collectStmts options gps s stmts = .ok t →
      ∀ j, (lookupId s j).isSome = true → (lookupId t j).isSome = true
  | [], s, t, h => by
    rw [collectStmts] at h
    cases h
    exact fun j hj => hj
  | stmt :: rest, s, t, h => by
    rw [collectStmts] at h
    split at h
    · cases h
    next s' hs' =>
      intro j hj
      exact collectStmts_mono options gps rest s' t h j
        (collectStmt_mono options gps stmt s s' hs' j hj)

end

/-- Under coverage, the root loop cannot fail. -/
theorem visitAll_success (M : Nat) :
    ∀ (fuel : Nat) l s e, Covered s → Bounded M s →
      (∀ r, r ∈ l → (lookupId s.st r).isSome = true) →
      solveWeight M s + l.length ≤ fuel → visitAll fuel s l = .error e →
      False := by
  intro fuel
  induction fuel with
  | zero =>
    intro l s e _ _ _ hle
    have := solveWeight_pos M s
    omega
  | succ fuel ih =>
    intro l s e hc hb hdom hle heq
    cases l with
    | nil => rw [visitAll] at heq; cases heq
    | cons r rest =>
      rw [visitAll] at heq
      split at heq
      next e0 hv1 =>
        injection heq with he
        subst he
        exact (solver_success M fuel).1 _ _ _ _ hc hb
          (hdom r (List.mem_cons_self r rest)) (by simp at hle; omega) hv1
      next d sA hv1 =>
        have hsA : StepOK s sA := (solver_stepOK fuel).1 _ _ _ _ _ hv1
        refine ih _ _ _ (hc.mono_c hsA) (hb.mono_b hsA) ?_ ?_ heq
        · intro r' hr'
          rw [hsA.idDom r']
          exact hdom r' (List.mem_cons_of_mem r hr')
        · have := solveWeight_mono M hsA
          simp at hle
          omega

/-- Under coverage of the collected graph, the solver succeeds: the
missing-node checks are unreachable, and sufficient fuel never runs out. -/
theorem computeMemoizedIdentifiers_ok {st : State} {M fuel : Nat}
    (hc : Covered { st := st, memo := [] })
    (hb : Bounded M { st := st, memo := [] })
    (hret : ∀ r, r ∈ st.returned → (lookupId st r).isSome = true)
    (hfuel : solveWeight M { st := st, memo := [] } + st.returned.length ≤
      fuel) :
    ∃ memo, computeMemoizedIdentifiers fuel st = .ok memo := by
  cases hres : visitAll fuel { st := st, memo := [] } st.returned with
  | error e =>
    exact absurd hres fun hres =>
      visitAll_success M fuel _ _ e hc hb hret hfuel hres
  | ok s' =>
    refine ⟨s'.memo, ?_⟩
    unfold computeMemoizedIdentifiers
    rw [hres]

/-! ## Transform lemmas -/

theorem hasMemoizedOutput_iff (sc : ReactiveScope)
    (state : List IdentifierId) :
    hasMemoizedOutput sc state = true ↔
      ∃ id, (id ∈ sc.declarations ∨ id ∈ sc.reassignments) ∧ id ∈ state := by
  unfold hasMemoizedOutput
  rw [Bool.or_eq_true, List.any_eq_true, List.any_eq_true]
  constructor
  · rintro (⟨id, hid, hcid⟩ | ⟨id, hid, hcid⟩)
    · exact ⟨id, Or.inl hid, by simpa using hcid⟩
    · exact ⟨id, Or.inr hid, by simpa using hcid⟩
  · rintro ⟨id, hid | hid, hmem⟩
    · exact Or.inl ⟨id, hid, by simpa using hmem⟩
    · exact Or.inr ⟨id, hid, by simpa using hmem⟩

theorem transformStmt_scope_eq (state : List IdentifierId)
    (sc : ReactiveScope) (instrs : List ReactiveStatement) :
    transformStmt state (.scope sc instrs) =
      if hasMemoizedOutput sc state = true
      then [.scope sc (transformStmts state instrs)]
      else transformStmts state instrs := by
  rw [transformStmt]
  unfold transformScopeDecision
  by_cases hm : hasMemoizedOutput sc state = true
  · simp [hm]
  · simp [hm]

mutual

theorem transformStmt_keptSound (state : List IdentifierId) :
    ∀ (stmt : ReactiveStatement) (sc : ReactiveScope)
      (instrs : List ReactiveStatement),
      ReactiveStatement.scope sc instrs ∈ transformStmt state stmt →
      hasMemoizedOutput sc state = true
  | .instruction i, sc, instrs, h => by
    rw [transformStmt] at h
    rcases List.mem_singleton.mp h with h
    cases h
  | .terminal t, sc, instrs, h => by
    rw [transformStmt] at h
    rcases List.mem_singleton.mp h with h
    cases h
  | .scope sc0 instrs0, sc, instrs, h => by
    rw [transformStmt_scope_eq] at h
    by_cases hm : hasMemoizedOutput sc0 state = true
    · rw [if_pos hm] at h
      rcases List.mem_singleton.mp h with h
      cases h
      exact hm
    · rw [if_neg hm] at h
      exact transformStmts_keptSound state instrs0 sc instrs h

theorem transformStmts_keptSound (state : List IdentifierId) :
    ∀ (stmts : List ReactiveStatement) (sc : ReactiveScope)
      (instrs : List ReactiveStatement),
      ReactiveStatement.scope sc instrs ∈ transformStmts state stmts →
      hasMemoizedOutput sc state = true
  | [], sc, instrs, h => by
    rw [transformStmts] at h
    cases h
  | stmt :: rest, sc, instrs, h => by
    rw [transformStmts] at h
    rcases List.mem_append.mp h with h | h
    · exact transformStmt_keptSound state stmt sc instrs h
    · exact transformStmts_keptSound state rest sc instrs h

end

/-! ## Bridging decidable checks to the solver hypotheses -/

theorem alookup_mem {α : Type} :
    ∀ {l : List (Nat × α)} {k : Nat} {v : α},
      alookup l k = some v → (k, v) ∈ l := by
  intro l
  induction l with
  | nil => intro k v h; cases h
  | cons p rest ih =>
    intro k v h
    obtain ⟨k', v'⟩ := p
    rw [alookup] at h
    by_cases hk : k' = k
    · rw [if_pos hk] at h
      subst hk
      have : v' = v := Option.some_injective _ h
      subst this
      exact List.mem_cons_self _ _
    · rw [if_neg hk] at h
      exact List.mem_cons_of_mem _ (ih h)

theorem mem_le_foldr_max {α : Type} (f : α → Nat) :
    ∀ (l : List α) (x : α), x ∈ l → f x ≤ (l.map f).foldr max 0 := by
  intro l
  induction l with
  | nil => intro x h; cases h
  | cons y rest ih =>
    intro x h
    rcases List.mem_cons.mp h with h | h
    · subst h
      exact Nat.le_max_left _ _
    · exact (ih x h).trans (Nat.le_max_right _ _)

/-- Every state is bounded by its own maximal node-list length. -/
theorem bounded_maxNodeLen (st : State) :
    Bounded (maxNodeLen st) { st := st, memo := [] } where
  idBounded j n hlk := by
    have hmem : (j, n) ∈ st.identifiers := alookup_mem hlk
    have hle := mem_le_foldr_max
      (fun p => max p.2.dependencies.length p.2.scopes.length)
      st.identifiers (j, n) hmem
    unfold maxNodeLen
    constructor
    · have : n.dependencies.length ≤
          max n.dependencies.length n.scopes.length := Nat.le_max_left _ _
      exact (this.trans hle).trans (Nat.le_max_left _ _)
    · have : n.scopes.length ≤
          max n.dependencies.length n.scopes.length := Nat.le_max_right _ _
      exact (this.trans hle).trans (Nat.le_max_left _ _)
  scBounded j n hlk := by
    have hmem : (j, n) ∈ st.scopes := alookup_mem hlk
    have hle := mem_le_foldr_max (fun p => p.2.dependencies.length)
      st.scopes (j, n) hmem
    unfold maxNodeLen
    exact hle.trans (Nat.le_max_right _ _)

/-- The boolean coverage check implies `Covered`. -/
theorem covered_of_check {st : State} (h : coveredCheck st = true) :
    Covered { st := st, memo := [] } := by
  unfold coveredCheck at h
  rw [Bool.and_eq_true, List.all_eq_true, List.all_eq_true] at h
  obtain ⟨hid, hsc⟩ := h
  refine ⟨?_, ?_, ?_⟩
  · intro j n hlk d hd
    have := hid (j, n) (alookup_mem hlk)
    rw [Bool.and_eq_true, List.all_eq_true, List.all_eq_true] at this
    exact this.1 d hd
  · intro j n hlk sc hsc'
    have := hid (j, n) (alookup_mem hlk)
    rw [Bool.and_eq_true, List.all_eq_true, List.all_eq_true] at this
    exact this.2 sc hsc'
  · intro j n hlk d hd
    have := hsc (j, n) (alookup_mem hlk)
    rw [List.all_eq_true] at this
    exact this d hd

/-- The boolean all-unseen check implies that every node is unseen. -/
theorem unseen_of_all {st : State}
    (h : (st.identifiers.all fun p => !p.2.seen) = true) :
    ∀ j m, lookupId st j = some m → m.seen = false := by
  rw [List.all_eq_true] at h
  intro j m hlk
  have := h (j, m) (alookup_mem hlk)
  simpa using this

/-- The boolean returned-coverage check implies node existence for every
returned identifier. -/
theorem returned_of_all {st : State}
    (h : (st.returned.all fun r => (lookupId st r).isSome) = true) :
    ∀ r, r ∈ st.returned → (lookupId st r).isSome = true := by
  rw [List.all_eq_true] at h
  exact fun r hr => h r hr

/-- Lemma: `solverFuelBound` is exactly the weight the root loop needs. -/
theorem solverFuelBound_eq (st : State) :
    solverFuelBound st =
      solveWeight (maxNodeLen st) { st := st, memo := [] } +
        st.returned.length := rfl

/-! ## The claims -/

/-- C8: `joinAliases` computes the lattice maximum in the order
`Never < Unmemoized < Conditional < Memoized` (it returns one of its
arguments, and its rank is the maximum of the argument ranks); it is
commutative, associative and idempotent; and an identifier assigned multiple
times ends at the lattice maximum of its individual classifications (a fold
of `joinAliases` has the rank of the maximum of the ranks). -/
theorem c8_joinAliases_lattice_max :
    (∀ a b : MemoizationLevel,
      rank (joinAliases a b) = max (rank a) (rank b)) ∧
    (∀ a b : MemoizationLevel, joinAliases a b = a ∨ joinAliases a b = b) ∧
    (∀ a b : MemoizationLevel, joinAliases a b = joinAliases b a) ∧
    (∀ a b c : MemoizationLevel,
      joinAliases (joinAliases a b) c = joinAliases a (joinAliases b c)) ∧
    (∀ a : MemoizationLevel, joinAliases a a = a) ∧
    (∀ (levels : List MemoizationLevel) (init : MemoizationLevel),
      rank (levels.foldl joinAliases init) =
        levels.foldl (fun m l => max m (rank l)) (rank init)) := by
  have hmax : ∀ a b : MemoizationLevel,
      rank (joinAliases a b) = max (rank a) (rank b) := by decide
  refine ⟨hmax, by decide, by decide, by decide, by decide, ?_⟩
  intro levels
  induction levels with
  | nil => intro init; rfl
  | cons l rest ih =>
    intro init
    rw [List.foldl_cons, List.foldl_cons, ih (joinAliases init l), hmax]

/-- C6: for `JsxExpression` and `JsxFragment` values with a non-null lvalue,
the lvalue's level is `Memoized` exactly when `memoizeJsxElements` is set and
`Unmemoized` otherwise; the rvalues are the tag, every attribute place or
spread argument, and every child (for fragments, the children). -/
theorem c6_jsx_classification :
    ∀ (options : MemoizationOptions) (tag : Place)
      (props : List JsxAttribute) (children : Option (List Place))
      (childrenF : List Place) (l : Place),
      computeMemoizationInputs (.JsxExpression tag props children) (some l)
          options =
        .ok { lvalues := [{ place := l,
                            level := if options.memoizeJsxElements
                              then .Memoized else .Unmemoized }],
              rvalues := tag ::
                (props.map fun prop =>
                  match prop with
                  | .attribute place => place
                  | .spreadAttribute argument => argument) ++
                children.getD [] } ∧
      computeMemoizationInputs (.JsxFragment childrenF) (some l) options =
        .ok { lvalues := [{ place := l,
                            level := if options.memoizeJsxElements
                              then .Memoized else .Unmemoized }],
              rvalues := childrenF } := by
  intro options tag props children childrenF l
  constructor
  · cases children <;> rfl
  · rfl

/-- C2: a reactive scope block is kept (with recursively transformed inner
statements) exactly when some declared or reassigned identifier is in the
memoized set, and is otherwise replaced, in place, by its own (recursively
transformed) instruction sequence; consequently every scope kept by the
transform has a declared or reassigned identifier in the memoized set. -/
theorem c2_prune_scope_decision :
    (∀ (state : List IdentifierId) (sc : ReactiveScope)
      (instrs : List ReactiveStatement),
      transformStmt state (.scope sc instrs) =
        if hasMemoizedOutput sc state = true
        then [.scope sc (transformStmts state instrs)]
        else transformStmts state instrs) ∧
    (∀ (state : List IdentifierId) (sc : ReactiveScope)
      (instrs : List ReactiveStatement),
      transformScopeDecision state sc instrs =
        if hasMemoizedOutput sc state = true then .keep
        else .replaceMany instrs) ∧
    (∀ (state : List IdentifierId) (stmts : List ReactiveStatement)
      (sc : ReactiveScope) (instrs : List ReactiveStatement),
      ReactiveStatement.scope sc instrs ∈ transformStmts state stmts →
      ∃ id, (id ∈ sc.declarations ∨ id ∈ sc.reassignments) ∧ id ∈ state) := by
  refine ⟨transformStmt_scope_eq, fun state sc instrs => rfl, ?_⟩
  intro state stmts sc instrs h
  exact (hasMemoizedOutput_iff sc state).mp
    (transformStmts_keptSound state stmts sc instrs h)

/-- Witness for C2 at a concrete kept scope. -/
theorem c2_witness :
    ∃ id, (id ∈ exScopeKept.declarations ∨ id ∈ exScopeKept.reassignments) ∧
      id ∈ [5] :=
  c2_prune_scope_decision.2.2 [5] [.scope exScopeKept []] exScopeKept []
    (by
      have heq : transformStmts [5] [.scope exScopeKept []] =
          [.scope exScopeKept []] := rfl
      rw [heq]
      exact List.mem_singleton_self _)

/-- C9: the escape solver terminates on every finite identifier/scope graph,
cyclic dependency edges included: with fuel at least `solverFuelBound`, the
solver never exhausts its fuel, because the `seen` marks let each identifier
and scope frame open at most once. -/
theorem c9_solver_terminates (st : State) (fuel : Nat)
    (hfuel : solverFuelBound st ≤ fuel) :
    computeMemoizedIdentifiers fuel st ≠ .error .outOfFuel := by
  intro heq
  unfold computeMemoizedIdentifiers at heq
  split at heq
  next e hva =>
    injection heq with he
    subst he
    refine visitAll_fuel (maxNodeLen st) fuel st.returned
      { st := st, memo := [] } (bounded_maxNodeLen st) ?_ hva
    rw [← solverFuelBound_eq]
    exact hfuel
  next s' hva => cases heq

/-- Witness for C9 on a concrete cyclic graph. -/
theorem c9_witness :
    solverFuelBound exGraphCycle ≤ 30 ∧
      computeMemoizedIdentifiers 30 exGraphCycle ≠ .error .outOfFuel :=
  ⟨by decide, c9_solver_terminates exGraphCycle 30 (by decide)⟩

/-- C10: `State.declare` creates nodes at level `Never`, and the solver never
adds an identifier whose node level is `Never` to the memoized set — even
when scope forcing reaches it — so pre-declared function ids and parameters
whose level is never joined upward cannot be memoized. -/
theorem c10_never_level_not_memoized :
    (∀ (s : State) (id : IdentifierId),
      lookupId (State.declare s id) id =
        some { level := .Never, memoized := false, dependencies := [],
               scopes := [], seen := false }) ∧
    (∀ (st : State) (fuel : Nat) (memo : List IdentifierId)
      (id : IdentifierId) (n : IdentifierNode),
      computeMemoizedIdentifiers fuel st = .ok memo →
      lookupId st id = some n → n.level = .Never → id ∉ memo) := by
  constructor
  · intro s id
    unfold State.declare
    rw [lookupId_insertId, if_pos rfl]
  · intro st fuel memo id n hres hlk hlev hmem
    unfold computeMemoizedIdentifiers at hres
    split at hres
    · cases hres
    next s' hva =>
      injection hres with he
      subst he
      have hstep := visitAll_stepOK fuel _ _ _ hva
      rcases hstep.memoNew id hmem with hin | ⟨m, hm, _, hmlev⟩
      · cases hin
      · have : m = n := Option.some_injective _ (hm.symm.trans hlk)
        subst this
        exact hmlev hlev

/-- Witness for C10: in `exGraphReturns` the returned identifier 4 has level
`Never` and is not memoized. -/
theorem c10_witness :
    computeMemoizedIdentifiers 30 exGraphReturns = .ok [1] ∧
      (4 : IdentifierId) ∉ [(1 : IdentifierId)] :=
  ⟨rfl,
    c10_never_level_not_memoized.2 exGraphReturns 30 [1] 4
      { level := .Never, memoized := false, dependencies := [], scopes := [],
        seen := false } rfl rfl rfl⟩

/-- C4 (amended): a returned identifier whose level is `Memoized` is always
in the memoized set, and one whose level is `Never` never is; identifiers of
level `Unmemoized` or `Conditional` may legitimately be left out (when no
forcing, and for `Conditional` no memoized dependency, makes them
memoized). -/
theorem c4_return_coverage {st : State} {fuel : Nat}
    {memo : List IdentifierId} {r : IdentifierId} {n : IdentifierNode}
    (hclean : (st.identifiers.all fun p => !p.2.seen) = true)
    (hres : computeMemoizedIdentifiers fuel st = .ok memo)
    (hr : r ∈ st.returned) (hlk : lookupId st r = some n) :
    (n.level = .Memoized → r ∈ memo) ∧ (n.level = .Never → r ∉ memo) := by
  unfold computeMemoizedIdentifiers at hres
  split at hres
  · cases hres
  next s' hva =>
    injection hres with he
    subst he
    have hstep : StepOK { st := st, memo := [] } s' :=
      visitAll_stepOK fuel _ _ _ hva
    constructor
    · intro hlev
      obtain ⟨n'', hlk'', hseen''⟩ := visitAll_seen fuel st.returned
        { st := st, memo := [] } s' hva r hr (by rw [hlk]; rfl)
      have hg' : SeenGoodExc s' [] := by
        refine visitAll_seenGood fuel st.returned _ _ [] hva ?_ ?_
        · intro j m hj hjs _ _
          have := unseen_of_all hclean j m hj
          rw [this] at hjs
          cases hjs
        · intro j hj
          cases hj
      obtain ⟨m, hm, hmlev, _, _⟩ := hstep.idShape r n hlk
      have hmn : m = n'' := Option.some_injective _ (hm.symm.trans hlk'')
      subst hmn
      exact (hg' r m hlk'' hseen'' (hmlev.trans hlev)
        (List.not_mem_nil r)).2
    · intro hlev hmem
      rcases hstep.memoNew r hmem with hin | ⟨m, hm, _, hmlev⟩
      · cases hin
      · have : m = n := Option.some_injective _ (hm.symm.trans hlk)
        subst this
        exact hmlev hlev

/-- Witness for C4: the returned `Memoized` identifier 1 of `exGraphReturns`
is memoized, and the returned `Never` identifier 4 is not. -/
theorem c4_witness :
    (1 : IdentifierId) ∈ [(1 : IdentifierId)] ∧
      (4 : IdentifierId) ∉ [(1 : IdentifierId)] :=
  ⟨(@c4_return_coverage exGraphReturns 30 [1] 1
      { level := .Memoized, memoized := false, dependencies := [],
        scopes := [], seen := false }
      (by decide) rfl (by decide) rfl).1 rfl,
    (@c4_return_coverage exGraphReturns 30 [1] 4
      { level := .Never, memoized := false, dependencies := [],
        scopes := [], seen := false }
      (by decide) rfl (by decide) rfl).2 rfl⟩

/-- Counterexample to C4 as stated: identifier 1 is returned with
classification `Conditional` — neither `Never` nor `Unmemoized` — has no
memoized dependency and is not forced, and it is not in the memoized set. -/
theorem c4_counterexample :
    computeMemoizedIdentifiers 30 exGraphConditionalReturn = .ok [] ∧
      (1 : IdentifierId) ∈ exGraphConditionalReturn.returned ∧
      lookupId exGraphConditionalReturn 1 =
        some { level := .Conditional, memoized := false, dependencies := [],
               scopes := [], seen := false } ∧
      MemoizationLevel.Conditional ≠ .Never ∧
      MemoizationLevel.Conditional ≠ .Unmemoized ∧
      (1 : IdentifierId) ∉ ([] : List IdentifierId) :=
  ⟨rfl, by decide, rfl, by decide, by decide, by decide⟩

theorem memoDecision_forced {level : MemoizationLevel} (h : level ≠ .Never)
    (hasDep : Bool) : memoDecision level hasDep true = true := by
  cases level <;> simp [memoDecision] at h ⊢

/-- C1: a `visit` of a not-yet-seen identifier node decides `memoized`
exactly by the rule — `Memoized`, or `Conditional` with a memoized dependency
or a forced visit, or `Unmemoized` forced — marks the node accordingly, and
adds the identifier to the output set exactly when it decides true. -/
theorem c1_visit_decision {fuel : Nat} {s : SolveState} {id : IdentifierId}
    {f b : Bool} {s' : SolveState} {node : IdentifierNode} {hasDep : Bool}
    {s2 : SolveState} (hlk : lookupId s.st id = some node)
    (hseen : node.seen = false)
    (hvd : visitDeps fuel (markSeen s id) node.dependencies =
      .ok (hasDep, s2))
    (h : visit (fuel + 1) s id f = .ok (b, s')) :
    b = memoDecision node.level hasDep f ∧
    (∃ n', lookupId s'.st id = some n' ∧ n'.memoized = b) ∧
    (id ∈ s'.memo ↔ b = true ∨ id ∈ s.memo) := by
  rw [visit] at h
  split at h
  next hlk2 => rw [hlk2] at hlk; cases hlk
  next node2 hlk2 =>
    have hn2 : node2 = node := Option.some_injective _ (hlk2.symm.trans hlk)
    subst hn2
    split at h
    next hsn =>
      rw [hseen] at hsn
      cases hsn
    next hsn =>
      have hlkM : lookupId (markSeen s id).st id =
          some { node2 with seen := true, memoized := false } := by
        unfold markSeen
        rw [lookupId_updateId, if_pos rfl, hlk]
        rfl
      split at h
      · cases h
      next hasDep2 s2' hvd2 =>
        have heq2 := hvd.symm.trans hvd2
        injection heq2 with hpair
        cases hpair
        have hs2 : StepOK (markSeen s id) s2 :=
          (solver_stepOK fuel).2.1 _ _ _ _ hvd2
        have hlk2' : lookupId s2.st id =
            some { node2 with seen := true, memoized := false } :=
          hs2.idPres id _ hlkM rfl
        split at h
        next hdec =>
          split at h
          · cases h
          next s4 hfs =>
            cases h
            have hs4 : StepOK (recordMemoized s2 id) s' :=
              (solver_stepOK fuel).2.2.1 _ _ _ hfs
            have hlk3 : lookupId (recordMemoized s2 id).st id =
                some { node2 with seen := true, memoized := true } := by
              unfold recordMemoized
              rw [lookupId_updateId, if_pos rfl, hlk2']
              rfl
            have hmem : id ∈ s'.memo := by
              refine hs4.memoMono id ?_
              unfold recordMemoized
              exact List.mem_append_right _ (List.mem_singleton_self id)
            refine ⟨hdec.symm, ⟨_, hs4.idPres id _ hlk3 rfl, rfl⟩, ?_⟩
            exact ⟨fun _ => Or.inl rfl, fun _ => hmem⟩
        next hdec =>
          cases h
          have hdec' : memoDecision node2.level hasDep f = false :=
            Bool.not_eq_true _ ▸ hdec
          refine ⟨hdec'.symm, ⟨_, hlk2', rfl⟩, ?_⟩
          constructor
          · intro hmem
            rcases hs2.memoNew id hmem with hin | ⟨m, hm, hms, _⟩
            · exact Or.inr hin
            · rw [hlkM] at hm
              have : m = { node2 with seen := true, memoized := false } :=
                Option.some_injective _ hm.symm
              rw [this] at hms
              cases hms
          · rintro (hfalse | hmem)
            · cases hfalse
            · exact hs2.memoMono id hmem

/-- Witness for C1 on a single unseen `Memoized` node. -/
theorem c1_witness :
    (true = memoDecision .Memoized false false) ∧
    (∃ n', lookupId
        (recordMemoized (markSeen { st := exGraphVisit, memo := [] } 1) 1).st
        1 = some n' ∧ n'.memoized = true) ∧
    ((1 : IdentifierId) ∈
        (recordMemoized (markSeen { st := exGraphVisit, memo := [] } 1)
          1).memo ↔
      true = true ∨ (1 : IdentifierId) ∈
          ({ st := exGraphVisit, memo := [] } : SolveState).memo) :=
  @c1_visit_decision 1 { st := exGraphVisit, memo := [] } 1 false true
    (recordMemoized (markSeen { st := exGraphVisit, memo := [] } 1) 1)
    { level := .Memoized, memoized := false, dependencies := [],
      scopes := [], seen := false }
    false
    (markSeen { st := exGraphVisit, memo := [] } 1)
    rfl rfl rfl rfl

/-- C3 (amended): forcing reaches every dependency of a forced scope — an
unseen scope's `forceScope` is exactly the forced visit of its
dependencies — and a forced visit of a dependency that is not yet seen and
whose level is not `Never` always decides it memoized; a dependency already
visited keeps its earlier decision even when the scope is later forced. -/
theorem c3_forced_dependency_memoized :
    (∀ (fuel : Nat) (s : SolveState) (d : IdentifierId) (b : Bool)
      (s' : SolveState) (node : IdentifierNode),
      lookupId s.st d = some node → node.seen = false →
      node.level ≠ .Never →
      visit (fuel + 1) s d true = .ok (b, s') →
      b = true ∧ d ∈ s'.memo) ∧
    (∀ (fuel : Nat) (s : SolveState) (sc : ScopeId) (snode : ScopeNode),
      lookupScope s.st sc = some snode → snode.seen = false →
      forceScope (fuel + 1) s sc =
        forceScopeDeps fuel (scopeMarkSeen s sc) snode.dependencies) := by
  constructor
  · intro fuel s d b s' node hlk hseen hlev h
    rw [visit] at h
    split at h
    next hlk2 => rw [hlk2] at hlk; cases hlk
    next node2 hlk2 =>
      have hn2 : node2 = node := Option.some_injective _ (hlk2.symm.trans hlk)
      subst hn2
      split at h
      next hsn =>
        rw [hseen] at hsn
        cases hsn
      next hsn =>
        split at h
        · cases h
        next hasDep2 s2' hvd2 =>
          have hs2 : StepOK (markSeen s d) s2' :=
            (solver_stepOK fuel).2.1 _ _ _ _ hvd2
          split at h
          next hdec =>
            split at h
            · cases h
            next s4 hfs =>
              cases h
              have hs4 : StepOK (recordMemoized s2' d) s' :=
                (solver_stepOK fuel).2.2.1 _ _ _ hfs
              refine ⟨rfl, hs4.memoMono d ?_⟩
              unfold recordMemoized
              exact List.mem_append_right _ (List.mem_singleton_self d)
          next hdec =>
            exact absurd (memoDecision_forced hlev hasDep2) hdec
  · intro fuel s sc snode hlk hseen
    rw [forceScope]
    simp [hlk, hseen]

/-- Witness for C3 on a forced visit of an unseen `Unmemoized` node. -/
theorem c3_witness :
    true = true ∧ (3 : IdentifierId) ∈
      (recordMemoized (markSeen { st := exGraphVisit, memo := [] } 3)
        3).memo :=
  c3_forced_dependency_memoized.1 1 { st := exGraphVisit, memo := [] } 3
    true (recordMemoized (markSeen { st := exGraphVisit, memo := [] } 3) 3)
    { level := .Unmemoized, memoized := false, dependencies := [],
      scopes := [], seen := false }
    rfl rfl (by decide) rfl

/-- Counterexample to C3 as stated: in `exGraphScopeOrder` the solver returns
the memoized set `[2]`; the transform keeps scope 7 (it declares identifier
2); the scope's dependency 3 has level `Unmemoized` — not `Never` — yet 3 is
not in the memoized set, because 3 was already visited (and left
non-memoized) through identifier 1 before scope 7 was forced. -/
theorem c3_counterexample :
    computeMemoizedIdentifiers 30 exGraphScopeOrder = .ok [2] ∧
    transformStmts [2] [.scope exScope7 []] = [.scope exScope7 []] ∧
    lookupScope exGraphScopeOrder 7 =
      some { dependencies := [3], seen := false } ∧
    lookupId exGraphScopeOrder 3 =
      some { level := .Unmemoized, memoized := false, dependencies := [],
             scopes := [], seen := false } ∧
    MemoizationLevel.Unmemoized ≠ .Never ∧
    (3 : IdentifierId) ∉ [(2 : IdentifierId)] :=
  ⟨rfl, rfl, rfl, rfl, by decide, by decide⟩

/-- C5 (amended): every lvalue reported by the classification has a node for
its resolved identifier after the instruction is collected; and when every
rvalue, returned identifier and scope dependency resolves to an identifier
with a node (the coverage check), the solver's and `visitOperand`'s
missing-node invariants are unreachable and the solver succeeds. -/
theorem c5_lvalue_nodes_and_solver_success :
    (∀ (options : MemoizationOptions) (gps : GetPlaceScope) (s : State)
      (instruction : ReactiveInstruction) (t : State)
      (aliasing : MemoizationInputs),
      visitInstructionC options gps s instruction = .ok t →
      computeMemoizationInputs instruction.value instruction.lvalue options =
        .ok aliasing →
      ∀ lv, lv ∈ aliasing.lvalues →
        (lookupId t (resolve s.definitions lv.place.identifier)).isSome =
          true) ∧
    (∀ (st : State) (fuel : Nat),
      coveredCheck st = true →
      (st.returned.all fun r => (lookupId st r).isSome) = true →
      solverFuelBound st ≤ fuel →
      ∃ memo, computeMemoizedIdentifiers fuel st = .ok memo) := by
  constructor
  · intro options gps s instruction t aliasing h hcomp lv hlv
    exact (visitInstructionC_ok h hcomp).2.2 lv hlv
  · intro st fuel hcov hret hfuel
    exact computeMemoizedIdentifiers_ok (covered_of_check hcov)
      (bounded_maxNodeLen st) (returned_of_all hret)
      (by rw [← solverFuelBound_eq]; exact hfuel)

/-- Witness for C5: the collected `LoadLocal` instruction has a node for its
resolved lvalue, and the solver succeeds on the covered example graph. -/
theorem c5_witness :
    (lookupId exCollected (resolve emptyState.definitions 10)).isSome =
      true ∧
    ∃ memo, computeMemoizedIdentifiers 30 exGraphScopeOrder = .ok memo :=
  ⟨c5_lvalue_nodes_and_solver_success.1 { memoizeJsxElements := false }
      gpsNone emptyState exLoadLocal exCollected
      { lvalues := [{ place := { identifier := 10, effect := .Store },
                      level := .Conditional }],
        rvalues := [{ identifier := 11, effect := .Read }] }
      rfl rfl
      { place := { identifier := 10, effect := .Store },
        level := .Conditional }
      (by decide),
    c5_lvalue_nodes_and_solver_success.2 exGraphScopeOrder 30
      (by decide) (by decide) (by decide)⟩

/-- Counterexample to C5 as stated: identifier 11 is referenced as an rvalue
of the collected instruction, yet after the collector finishes it has no node
in the identifier map (nodes are created lazily only for lvalues). -/
theorem c5_counterexample :
    visitInstructionC { memoizeJsxElements := false } gpsNone emptyState
        exLoadLocal = .ok exCollected ∧
    computeMemoizationInputs exLoadLocal.value exLoadLocal.lvalue
        { memoizeJsxElements := false } =
      .ok { lvalues := [{ place := { identifier := 10, effect := .Store },
                          level := .Conditional }],
            rvalues := [{ identifier := 11, effect := .Read }] } ∧
    lookupId exCollected 11 = none :=
  ⟨rfl, rfl, rfl⟩

/-- C7: `resolve` applies the `definitions` map exactly one step — a hit maps
to its image even when the image is itself a key, and a miss returns the
input unchanged — and for every `LoadLocal` with a non-null lvalue the
mapping lvalue → source is recorded after the instruction's own lvalues and
rvalues were processed with the previous map. -/
theorem c7_definitions_one_step :
    (∀ (defs : List (IdentifierId × IdentifierId)) (id : IdentifierId),
      resolve defs id = (alookup defs id).getD id) ∧
    (∀ (defs : List (IdentifierId × IdentifierId)) (id : IdentifierId),
      alookup defs id = none → resolve defs id = id) ∧
    (∀ (defs : List (IdentifierId × IdentifierId)) (a c : IdentifierId),
      alookup defs a = some c → resolve defs a = c) ∧
    (∀ (options : MemoizationOptions) (gps : GetPlaceScope) (s : State)
      (instruction : ReactiveInstruction) (t : State) (place lvalue : Place),
      instruction.value = .LoadLocal place →
      instruction.lvalue = some lvalue →
      visitInstructionC options gps s instruction = .ok t →
      alookup t.definitions lvalue.identifier = some place.identifier ∧
      (∀ d, d ≠ lvalue.identifier →
        alookup t.definitions d = alookup s.definitions d) ∧
      (lookupId t (resolve s.definitions lvalue.identifier)).isSome =
        true) := by
  refine ⟨fun defs id => rfl, ?_, ?_, ?_⟩
  · intro defs id h
    unfold resolve
    rw [h]
    rfl
  · intro defs a c h
    unfold resolve
    rw [h]
    rfl
  · intro options gps s instruction t place lvalue hval hlv h
    have hcomp : computeMemoizationInputs instruction.value
        instruction.lvalue options =
        .ok { lvalues := [{ place := lvalue, level := .Conditional }],
              rvalues := [place] } := by
      rw [hval, hlv]
      rfl
    unfold visitInstructionC at h
    split at h
    · cases h
    next aliasing0 hcomp0 =>
      rw [hcomp0] at hcomp
      injection hcomp with ha
      subst ha
      split at h
      · cases h
      next sR hR =>
        split at h
        · cases h
        next sL hL =>
          cases h
          obtain ⟨hdR, hrR, hiR⟩ := visitRValues_ok hR
          obtain ⟨hdL, hrL, hiL, hnL⟩ := visitLValues_ok hL
          have hdefs : (recordDefinition sL instruction).definitions =
              (lvalue.identifier, place.identifier) :: sL.definitions :=
            definitions_recordDefinition_loadLocal sL instruction place
              lvalue hval hlv
          refine ⟨?_, ?_, ?_⟩
          · rw [hdefs, alookup, if_pos rfl]
          · intro d hd
            rw [hdefs, alookup,
              if_neg (fun hh => hd hh.symm), hdL, hdR]
          · rw [lookupId_recordDefinition, ← hdR]
            exact hnL { place := lvalue, level := .Conditional }
              (List.mem_singleton_self _)

/-- Witness for C7 on the concrete `LoadLocal` instruction. -/
theorem c7_witness :
    alookup exCollected.definitions 10 = some 11 ∧
    (∀ d, d ≠ 10 →
      alookup exCollected.definitions d =
        alookup emptyState.definitions d) ∧
    (lookupId exCollected (resolve emptyState.definitions 10)).isSome =
      true :=
  c7_definitions_one_step.2.2.2 { memoizeJsxElements := false } gpsNone
    emptyState exLoadLocal exCollected
    { identifier := 11, effect := .Read }
    { identifier := 10, effect := .Store } rfl rfl rfl

end PruneScopes
